import Mathlib

set_option maxRecDepth 10000

/-!
# Verification of the `hamming_lsh` repository

Shallow embedding of `src/lib.rs` (the library crate) and of the earlier
prototype in `src/main.rs`, together with proofs settling the claims about
the natural-language specification.

Modelling conventions:
* `HammingCode = u128` is modelled as `Nat` together with the side condition
  `< 2 ^ 128` where it matters.
* Machine arithmetic is modelled with checked ("debug profile") semantics:
  an operation that panics in the Rust source (shift overflow, out-of-range
  slice index, out-of-range `Vec` index) is modelled by an `Option`-returning
  function that yields `none` on the panicking input.  In particular
  `h << i` on a `u32` panics for `i ≥ 32`, and `1usize << k` panics for
  `k ≥ 64`.
* The random permutation produced by `Vec::shuffle` is passed in as an
  explicit parameter (a list `b` of bit positions); theorems quantify over
  every permutation of `0..128`, which is exactly the set of values the
  RNG can produce.
-/

namespace HammingLsh

/-- Fuel-bounded binary digit count: `popCountAux f n` counts the set bits
among the low `f` bits of `n`. -/
def popCountAux : Nat → Nat → Nat
  | 0, _ => 0
  | fuel + 1, n => n % 2 + popCountAux fuel (n / 2)

/-- `u128::count_ones`: number of set bits of a 128-bit value.  (Correct for
every `n < 2 ^ 128`, which is the whole domain of `u128`.) -/
def popCount (n : Nat) : Nat := popCountAux 128 n

/-- `hamming_distance` from `src/lib.rs` lines 5-7:
`(a ^ b).count_ones()`. -/
def hamming_distance (a b : Nat) : Nat := popCount (a ^^^ b)

theorem popCountAux_zero (f : Nat) : popCountAux f 0 = 0 := by
  induction f with
  | zero => rfl
  | succ f ih => simp [popCountAux, ih]

/-- `popCountAux f` counts exactly the set bits at positions `< f`. -/
theorem popCountAux_eq_length_filter (f : Nat) :
    ∀ n : Nat, popCountAux f n = ((List.range f).filter (fun i => n.testBit i)).length := by
  induction f with
  | zero => intro n; simp [popCountAux]
  | succ f ih =>
    intro n
    have hcomp : ((fun i => n.testBit i) ∘ Nat.succ) = (fun i => (n / 2).testBit i) := by
      funext i
      simp only [Function.comp_apply, Nat.succ_eq_add_one]
      exact Nat.testBit_succ n i
    have hstep : popCountAux (f + 1) n = n % 2 + popCountAux f (n / 2) := rfl
    rw [hstep, ih (n / 2), List.range_succ_eq_map, List.filter_cons, List.filter_map, hcomp]
    by_cases h0 : n.testBit 0
    · have hmod : n % 2 = 1 := by
        have hd := Nat.testBit_zero n; rw [h0] at hd
        exact of_decide_eq_true hd.symm
      rw [if_pos (show (fun i => n.testBit i) 0 = true from h0), List.length_cons,
        List.length_map]
      omega
    · have hmod : n % 2 = 0 := by
        have hd := Nat.testBit_zero n
        rw [Bool.not_eq_true] at h0
        rw [h0] at hd
        have : ¬ (n % 2 = 1) := of_decide_eq_false hd.symm
        omega
      rw [if_neg (show ¬ (fun i => n.testBit i) 0 = true from h0), List.length_map]
      omega

/-- For a `u128` value, `popCount` is the number of set bits among
positions `0..128`. -/
theorem popCount_eq_length_filter (n : Nat) :
    popCount n = ((List.range 128).filter (fun i => n.testBit i)).length :=
  popCountAux_eq_length_filter 128 n

theorem popCount_zero : popCount 0 = 0 := popCountAux_zero 128

theorem popCount_le_128 (n : Nat) : popCount n ≤ 128 := by
  rw [popCount_eq_length_filter]
  calc ((List.range 128).filter (fun i => n.testBit i)).length
      ≤ (List.range 128).length := List.length_filter_le _ _
    _ = 128 := List.length_range 128

theorem popCount_eq_zero_iff {n : Nat} (hn : n < 2 ^ 128) :
    popCount n = 0 ↔ n = 0 := by
  constructor
  · intro h
    rw [popCount_eq_length_filter, List.length_eq_zero] at h
    apply Nat.eq_of_testBit_eq
    intro i
    rw [Nat.zero_testBit]
    by_cases hi : i < 128
    · by_contra hbit
      rw [Bool.not_eq_false] at hbit
      have : i ∈ (List.range 128).filter (fun j => n.testBit j) := by
        rw [List.mem_filter]
        exact ⟨List.mem_range.mpr hi, hbit⟩
      rw [h] at this
      exact absurd this (List.not_mem_nil i)
    · exact Nat.testBit_lt_two_pow (lt_of_lt_of_le hn (Nat.pow_le_pow_right (by omega) (by omega)))
  · intro h; subst h; exact popCount_zero

/-- Pointwise implication between filters bounds the length (used for the
triangle inequality). -/
theorem length_filter_le_add_length_filter {p q r : Nat → Bool} :
    ∀ l : List Nat, (∀ x ∈ l, p x → q x ∨ r x) →
      (l.filter p).length ≤ (l.filter q).length + (l.filter r).length := by
  intro l
  induction l with
  | nil => intro _; simp
  | cons hd tl ih =>
    intro h
    have htl := ih (fun x hx => h x (List.mem_cons_of_mem hd hx))
    simp only [List.filter_cons]
    by_cases hp : p hd
    · have := h hd (List.mem_cons_self hd tl) hp
      rcases this with hq | hr
      · simp [hp, hq]
        rcases Bool.eq_false_or_eq_true (r hd) with hr' | hr' <;> simp [hr'] <;> omega
      · simp [hp, hr]
        rcases Bool.eq_false_or_eq_true (q hd) with hq' | hq' <;> simp [hq'] <;> omega
    · simp only [hp, Bool.false_eq_true, if_false]
      rcases Bool.eq_false_or_eq_true (q hd) with hq' | hq' <;>
        rcases Bool.eq_false_or_eq_true (r hd) with hr' | hr' <;>
          simp [hq', hr'] <;> omega

theorem hamming_distance_eq_popCount_xor (a b : Nat) :
    hamming_distance a b = popCount (a ^^^ b) := rfl

theorem hamming_distance_comm (a b : Nat) :
    hamming_distance a b = hamming_distance b a := by
  unfold hamming_distance
  rw [Nat.xor_comm]

theorem hamming_distance_self (a : Nat) : hamming_distance a a = 0 := by
  unfold hamming_distance
  rw [Nat.xor_self]
  exact popCount_zero

theorem hamming_distance_le_128 (a b : Nat) : hamming_distance a b ≤ 128 :=
  popCount_le_128 _

theorem hamming_distance_eq_zero_iff {a b : Nat}
    (ha : a < 2 ^ 128) (hb : b < 2 ^ 128) :
    hamming_distance a b = 0 ↔ a = b := by
  unfold hamming_distance
  rw [popCount_eq_zero_iff (Nat.xor_lt_two_pow ha hb)]
  constructor
  · intro h
    have := congrArg (fun x => x ^^^ b) h
    simpa [Nat.xor_assoc] using this
  · intro h; simp [h]

theorem hamming_distance_triangle (a b c : Nat) :
    hamming_distance a b ≤ hamming_distance a c + hamming_distance c b := by
  unfold hamming_distance
  rw [popCount_eq_length_filter, popCount_eq_length_filter, popCount_eq_length_filter]
  apply length_filter_le_add_length_filter
  intro i _ hab
  rw [Nat.testBit_xor] at hab ⊢
  rw [Nat.testBit_xor]
  revert hab
  rcases Bool.eq_false_or_eq_true (a.testBit i) with h1 | h1 <;>
    rcases Bool.eq_false_or_eq_true (b.testBit i) with h2 | h2 <;>
      rcases Bool.eq_false_or_eq_true (c.testBit i) with h3 | h3 <;>
        simp [h1, h2, h3]

/-- One element of a list may flip a filter predicate from `false` to `true`;
on a duplicate-free list this grows the filter by exactly one. -/
theorem length_filter_flip {p q : Nat → Bool} :
    ∀ (l : List Nat) (i : Nat), l.Nodup → i ∈ l → p i = false → q i = true →
      (∀ j ∈ l, j ≠ i → q j = p j) →
      (l.filter q).length = (l.filter p).length + 1 := by
  intro l
  induction l with
  | nil => intro i _ hi; exact absurd hi (List.not_mem_nil i)
  | cons hd tl ih =>
    intro i hnd hi hpi hqi hagree
    have hnd' := List.nodup_cons.mp hnd
    rcases List.mem_cons.mp hi with heq | htl
    · subst heq
      have htlcong : tl.filter q = tl.filter p := by
        apply List.filter_congr
        intro j hj
        exact hagree j (List.mem_cons_of_mem _ hj) (fun h => hnd'.1 (h ▸ hj))
      rw [List.filter_cons, List.filter_cons, htlcong, if_pos hqi,
        if_neg (by rw [hpi]; simp), List.length_cons]
    · have hne : hd ≠ i := fun h => hnd'.1 (h ▸ htl)
      have hq : q hd = p hd := hagree hd (List.mem_cons_self hd tl) hne
      have := ih i hnd'.2 htl hpi hqi
        (fun j hj hji => hagree j (List.mem_cons_of_mem _ hj) hji)
      rw [List.filter_cons, List.filter_cons, hq]
      by_cases hp : p hd
      · rw [if_pos hp, if_pos hp, List.length_cons, List.length_cons, this]
      · rw [if_neg hp, if_neg hp, this]

/-- Flipping one fresh bit of a `u128` value raises `popCount` by one. -/
theorem popCount_xor_two_pow {x i : Nat} (hi : i < 128) (hbit : x.testBit i = false) :
    popCount (x ^^^ 2 ^ i) = popCount x + 1 := by
  rw [popCount_eq_length_filter, popCount_eq_length_filter]
  apply length_filter_flip (List.range 128) i (List.nodup_range 128)
    (List.mem_range.mpr hi)
  · exact hbit
  · rw [Nat.testBit_xor, hbit, Nat.testBit_two_pow_self]; rfl
  · intro j _ hji
    rw [Nat.testBit_xor, Nat.testBit_two_pow_of_ne (fun h => hji h.symm)]
    simp

/-- The loop body of `hash` from `src/lib.rs` lines 9-19: `planes` still to
process, `i` the current index, `h` the accumulator (`hash |= h_bit << i`). -/
def hashGo (v : Nat) : List Nat → Nat → Nat → Nat
  | [], _, h => h
  | plane :: ps, i, h =>
      hashGo v ps (i + 1) (h ||| ((if v &&& plane = 0 then 0 else 1) <<< i))

/-- `hash(planes, v)` from `src/lib.rs` lines 9-19, on the assumption that no
shift overflows (see `hash?`). -/
def hash (planes : List Nat) (v : Nat) : Nat := hashGo v planes 0 0

/-- `hash` with the checked `u32` shift semantics: `h << i` on a `u32` panics
as soon as `i` reaches 32, i.e. whenever more than 32 hyperplanes are given. -/
def hashChk (planes : List Nat) (v : Nat) : Option Nat :=
  if planes.length ≤ 32 then some (hash planes v) else none

theorem hashGo_lt (v : Nat) :
    ∀ (ps : List Nat) (i h : Nat), h < 2 ^ i → hashGo v ps i h < 2 ^ (i + ps.length) := by
  intro ps
  induction ps with
  | nil => intro i h hh; simpa using hh
  | cons p ps ih =>
    intro i h hh
    have hb : ((if v &&& p = 0 then 0 else 1) <<< i) < 2 ^ (i + 1) := by
      rw [Nat.shiftLeft_eq]
      have : (if v &&& p = 0 then 0 else 1) ≤ 1 := by split <;> omega
      calc (if v &&& p = 0 then 0 else 1) * 2 ^ i ≤ 1 * 2 ^ i :=
            Nat.mul_le_mul_right _ this
        _ < 2 ^ (i + 1) := by rw [Nat.one_mul, Nat.pow_succ]; omega
    have hacc : (h ||| ((if v &&& p = 0 then 0 else 1) <<< i)) < 2 ^ (i + 1) := by
      apply Nat.or_lt_two_pow _ hb
      calc h < 2 ^ i := hh
        _ ≤ 2 ^ (i + 1) := Nat.pow_le_pow_right (by omega) (by omega)
    have := ih (i + 1) _ hacc
    have harr : i + 1 + ps.length = i + (ps.length + 1) := by omega
    rw [harr] at this
    simpa using this

/-- The bucket index is always below `2 ^ k` (k = number of hyperplanes). -/
theorem hash_lt (planes : List Nat) (v : Nat) : hash planes v < 2 ^ planes.length := by
  have := hashGo_lt v planes 0 0 (by simp)
  simpa using this

theorem hashGo_testBit (v : Nat) :
    ∀ (ps : List Nat) (i h j : Nat), (∀ j', i ≤ j' → h.testBit j' = false) →
      (hashGo v ps i h).testBit j =
        if j < i then h.testBit j
        else if j - i < ps.length then decide (v &&& ps.getD (j - i) 0 ≠ 0)
        else false := by
  intro ps
  induction ps with
  | nil =>
    intro i h j hh
    simp only [hashGo, List.length_nil]
    by_cases hji : j < i
    · rw [if_pos hji]
    · rw [if_neg hji, if_neg (by omega)]
      exact hh j (by omega)
  | cons p ps ih =>
    intro i h j hh
    have hbitsmall : ∀ m, 1 ≤ m → (if v &&& p = 0 then 0 else 1).testBit m = false := by
      intro m hm
      split
      · exact Nat.zero_testBit m
      · have : (1 : Nat) = 2 ^ 0 := rfl
        rw [this, Nat.testBit_two_pow_of_ne (by omega)]
    have hacc : ∀ j', i + 1 ≤ j' →
        (h ||| ((if v &&& p = 0 then 0 else 1) <<< i)).testBit j' = false := by
      intro j' hj'
      rw [Nat.testBit_or, hh j' (by omega), Nat.testBit_shiftLeft]
      have : (if v &&& p = 0 then 0 else 1).testBit (j' - i) = false :=
        hbitsmall _ (by omega)
      rw [this]
      simp
    have := ih (i + 1) _ j hacc
    simp only [hashGo]
    rw [this]
    by_cases hji : j < i
    · rw [if_pos (by omega : j < i + 1), if_pos hji,
        Nat.testBit_or, Nat.testBit_shiftLeft]
      have : decide (i ≤ j) = false := by simp; omega
      rw [this]
      simp
    · by_cases hje : j = i
      · subst hje
        rw [if_pos (by omega : j < j + 1), if_neg (by omega : ¬ j < j),
          if_pos (by simp : j - j < (p :: ps).length),
          Nat.testBit_or, hh j (by omega), Nat.testBit_shiftLeft]
        have h1 : decide (j ≤ j) = true := by simp
        rw [h1, Nat.sub_self]
        simp only [List.getD]
        by_cases hvp : v &&& p = 0
        · rw [if_pos hvp]
          simp [Nat.zero_testBit, hvp]
        · rw [if_neg hvp]
          have : (1 : Nat).testBit 0 = true := rfl
          simp [this, hvp]
      · have hji' : i < j := by omega
        rw [if_neg (by omega : ¬ j < i + 1), if_neg hji]
        have harith : j - (i + 1) = j - i - 1 := by omega
        rw [harith]
        have hlen : (j - i - 1 < ps.length) ↔ (j - i < (p :: ps).length) := by
          simp only [List.length_cons]; omega
        by_cases hin : j - i - 1 < ps.length
        · rw [if_pos hin, if_pos (hlen.mp hin)]
          have : (p :: ps).getD (j - i) 0 = ps.getD (j - i - 1) 0 := by
            have : j - i = (j - i - 1) + 1 := by omega
            rw [this]
            rfl
          rw [this]
        · rw [if_neg hin, if_neg (fun h => hin (hlen.mpr h))]

/-- Output bit `i` of `hash(planes, v)` records whether `v` meets plane `i`. -/
theorem hash_testBit (planes : List Nat) (v j : Nat) :
    (hash planes v).testBit j =
      if j < planes.length then decide (v &&& planes.getD j 0 ≠ 0) else false := by
  have := hashGo_testBit v planes 0 0 j (fun j' _ => Nat.zero_testBit j')
  unfold hash
  rw [this, if_neg (by omega : ¬ j < 0)]
  simp

/-- The all-zero code always lands in bucket 0 (`0 AND plane = 0` for every
plane). -/
theorem hash_zero (planes : List Nat) : hash planes 0 = 0 := by
  apply Nat.eq_of_testBit_eq
  intro i
  rw [Nat.zero_testBit, hash_testBit]
  by_cases h : i < planes.length
  · rw [if_pos h]
    simp [Nat.zero_and]
  · rw [if_neg h]

/-- Loop of `nearest` from `src/lib.rs` lines 21-34: remaining candidates,
current `min`, current `best`.  Returns the final `(min, best)` pair of the
two mutable loop variables. -/
def nearestGo {T : Type} (v : Nat) :
    List (Option (Nat × T)) → Nat → Option (Nat × T) → Nat × Option (Nat × T)
  | [], min, best => (min, best)
  | none :: ns, min, best => nearestGo v ns min best
  | some (k, i) :: ns, min, best =>
      if hamming_distance k v < min then
        nearestGo v ns (hamming_distance k v) (some (k, i))
      else nearestGo v ns min best

/-- `nearest(candidates, v)` from `src/lib.rs` lines 21-34: strict-`<` scan
with `min` initialised to `u32::MAX = 2 ^ 32 - 1`. -/
def nearest {T : Type} (candidates : List (Option (Nat × T))) (v : Nat) :
    Option (Nat × T) :=
  (nearestGo v candidates (2 ^ 32 - 1) none).2

theorem nearestGo_fst_le {T : Type} (v : Nat) :
    ∀ (xs : List (Option (Nat × T))) (m : Nat) (b : Option (Nat × T)),
      (nearestGo v xs m b).1 ≤ m := by
  intro xs
  induction xs with
  | nil => intro m b; exact Nat.le_refl m
  | cons x ns ih =>
    intro m b
    rcases x with _ | ⟨c, t⟩
    · exact ih m b
    · simp only [nearestGo]
      split
      · next h => exact Nat.le_trans (ih _ _) (Nat.le_of_lt h)
      · exact ih m b

/-- The final `min` is a lower bound for the distance of every `Some`
candidate in the scanned list. -/
theorem nearestGo_fst_le_dist {T : Type} (v : Nat) :
    ∀ (xs : List (Option (Nat × T))) (m : Nat) (b : Option (Nat × T)) (c : Nat) (t : T),
      some (c, t) ∈ xs → (nearestGo v xs m b).1 ≤ hamming_distance c v := by
  intro xs
  induction xs with
  | nil => intro m b c t h; exact absurd h (List.not_mem_nil _)
  | cons x ns ih =>
    intro m b c t h
    rcases List.mem_cons.mp h with heq | htl
    · subst heq
      simp only [nearestGo]
      split
      · next hlt => exact nearestGo_fst_le v ns _ _
      · next hlt => exact Nat.le_trans (nearestGo_fst_le v ns _ _) (Nat.le_of_not_lt hlt)
    · rcases x with _ | ⟨c', t'⟩
      · exact ih m b c t htl
      · simp only [nearestGo]
        split
        · exact ih _ _ c t htl
        · exact ih m b c t htl

/-- The `(min, best)` pair either survives the scan untouched or ends as a
scanned candidate together with its distance. -/
theorem nearestGo_pair_cases {T : Type} (v : Nat) :
    ∀ (xs : List (Option (Nat × T))) (m : Nat) (b : Option (Nat × T)),
      nearestGo v xs m b = (m, b) ∨
        ∃ c t, nearestGo v xs m b = (hamming_distance c v, some (c, t)) ∧
          some (c, t) ∈ xs := by
  intro xs
  induction xs with
  | nil => intro m b; exact Or.inl rfl
  | cons x ns ih =>
    intro m b
    rcases x with _ | ⟨c', t'⟩
    · rcases ih m b with h | ⟨c, t, h1, h2⟩
      · exact Or.inl h
      · exact Or.inr ⟨c, t, h1, List.mem_cons_of_mem _ h2⟩
    · simp only [nearestGo]
      split
      · rcases ih (hamming_distance c' v) (some (c', t')) with h | ⟨c, t, h1, h2⟩
        · exact Or.inr ⟨c', t', h, List.mem_cons_self _ _⟩
        · exact Or.inr ⟨c, t, h1, List.mem_cons_of_mem _ h2⟩
      · rcases ih m b with h | ⟨c, t, h1, h2⟩
        · exact Or.inl h
        · exact Or.inr ⟨c, t, h1, List.mem_cons_of_mem _ h2⟩

/-- If no candidate strictly beats the running `min`, the loop state is kept. -/
theorem nearestGo_eq_of_no_improve {T : Type} (v : Nat) :
    ∀ (xs : List (Option (Nat × T))) (m : Nat) (b : Option (Nat × T)),
      (∀ c t, some (c, t) ∈ xs → ¬ hamming_distance c v < m) →
      nearestGo v xs m b = (m, b) := by
  intro xs
  induction xs with
  | nil => intro m b _; rfl
  | cons x ns ih =>
    intro m b h
    rcases x with _ | ⟨c', t'⟩
    · exact ih m b (fun c t ht => h c t (List.mem_cons_of_mem _ ht))
    · simp only [nearestGo]
      rw [if_neg (h c' t' (List.mem_cons_self _ _))]
      exact ih m b (fun c t ht => h c t (List.mem_cons_of_mem _ ht))

/-- Once `best` is a `Some`, it stays a `Some`. -/
theorem nearestGo_snd_isSome {T : Type} (v : Nat) :
    ∀ (xs : List (Option (Nat × T))) (m c0 : Nat) (t0 : T),
      ∃ c t, (nearestGo v xs m (some (c0, t0))).2 = some (c, t) := by
  intro xs
  induction xs with
  | nil => intro m c0 t0; exact ⟨c0, t0, rfl⟩
  | cons x ns ih =>
    intro m c0 t0
    rcases x with _ | ⟨c', t'⟩
    · exact ih m c0 t0
    · simp only [nearestGo]
      split
      · exact ih _ c' t'
      · exact ih m c0 t0

/-- A candidate beating the running `min` guarantees a `Some` result. -/
theorem nearestGo_snd_isSome_of_mem {T : Type} (v : Nat) :
    ∀ (xs : List (Option (Nat × T))) (m : Nat) (b : Option (Nat × T)) (c : Nat) (t : T),
      some (c, t) ∈ xs → hamming_distance c v < m →
      ∃ c' t', (nearestGo v xs m b).2 = some (c', t') := by
  intro xs
  induction xs with
  | nil => intro m b c t h; exact absurd h (List.not_mem_nil _)
  | cons x ns ih =>
    intro m b c t h hlt
    rcases List.mem_cons.mp h with heq | htl
    · subst heq
      simp only [nearestGo]
      rw [if_pos hlt]
      exact nearestGo_snd_isSome v ns _ _ _
    · rcases x with _ | ⟨c', t'⟩
      · exact ih m b c t htl hlt
      · simp only [nearestGo]
        split
        · next hlt' =>
          rcases Nat.lt_or_ge (hamming_distance c v) (hamming_distance c' v) with hc | hc
          · exact ih _ _ c t htl hc
          · exact nearestGo_snd_isSome v ns _ _ _
        · exact ih m b c t htl hlt

/-- The winner is the first candidate attaining the final minimum: everything
before it in the list is strictly farther from the query. -/
theorem nearestGo_first {T : Type} (v : Nat) :
    ∀ (xs : List (Option (Nat × T))) (m : Nat) (b : Option (Nat × T)) (c : Nat) (t : T),
      (nearestGo v xs m b).2 = some (c, t) →
      b = some (c, t) ∨
        ∃ l1 l2, xs = l1 ++ some (c, t) :: l2 ∧ hamming_distance c v < m ∧
          ∀ c' t', some (c', t') ∈ l1 → hamming_distance c v < hamming_distance c' v := by
  intro xs
  induction xs with
  | nil => intro m b c t h; exact Or.inl h
  | cons x ns ih =>
    intro m b c t h
    rcases x with _ | ⟨c', t'⟩
    · rcases ih m b c t h with hb | ⟨l1, l2, h1, h2, h3⟩
      · exact Or.inl hb
      · refine Or.inr ⟨none :: l1, l2, by rw [h1]; rfl, h2, ?_⟩
        intro c'' t'' hmem
        rcases List.mem_cons.mp hmem with heq | htl
        · exact absurd heq.symm (by simp)
        · exact h3 c'' t'' htl
    · simp only [nearestGo] at h
      by_cases hlt : hamming_distance c' v < m
      · rw [if_pos hlt] at h
        rcases ih _ _ c t h with hb | ⟨l1, l2, h1, h2, h3⟩
        · have hct : c' = c ∧ t' = t := by
            have := Option.some.inj hb
            exact ⟨congrArg Prod.fst this, congrArg Prod.snd this⟩
          rcases hct with ⟨hc, ht⟩
          subst hc; subst ht
          exact Or.inr ⟨[], ns, rfl, hlt, fun c'' t'' hmem => absurd hmem (List.not_mem_nil _)⟩
        · refine Or.inr ⟨some (c', t') :: l1, l2, by rw [h1]; rfl, Nat.lt_trans h2 hlt, ?_⟩
          intro c'' t'' hmem
          rcases List.mem_cons.mp hmem with heq | htl
          · have hc : c'' = c' := congrArg Prod.fst (Option.some.inj heq)
            subst hc
            exact h2
          · exact h3 c'' t'' htl
      · rw [if_neg hlt] at h
        rcases ih m b c t h with hb | ⟨l1, l2, h1, h2, h3⟩
        · exact Or.inl hb
        · refine Or.inr ⟨some (c', t') :: l1, l2, by rw [h1]; rfl, h2, ?_⟩
          intro c'' t'' hmem
          rcases List.mem_cons.mp hmem with heq | htl
          · have hc : c'' = c' := congrArg Prod.fst (Option.some.inj heq)
            subst hc
            exact Nat.lt_of_lt_of_le h2 (Nat.le_of_not_lt hlt)
          · exact h3 c'' t'' htl

/-- `u32::MAX` strictly dominates every 128-bit Hamming distance. -/
theorem hamming_distance_lt_u32_max (a b : Nat) :
    hamming_distance a b < 2 ^ 32 - 1 := by
  have := hamming_distance_le_128 a b
  have h : (128 : Nat) < 2 ^ 32 - 1 := by norm_num
  omega

/-- `nearest` returns `none` iff the candidate list holds no `Some` at all. -/
theorem nearest_eq_none_iff {T : Type} (xs : List (Option (Nat × T))) (v : Nat) :
    nearest xs v = none ↔ ∀ x ∈ xs, x = none := by
  constructor
  · intro h x hx
    rcases x with _ | ⟨c, t⟩
    · rfl
    · rcases nearestGo_snd_isSome_of_mem v xs (2 ^ 32 - 1) none c t hx
        (hamming_distance_lt_u32_max c v) with ⟨c', t', h'⟩
      rw [nearest] at h
      rw [h'] at h
      exact absurd h (by simp)
  · intro h
    rw [nearest]
    rcases nearestGo_pair_cases v xs (2 ^ 32 - 1) none with hp | ⟨c, t, _, h2⟩
    · rw [hp]
    · exact absurd (h _ h2) (by simp)

/-- A `Some` result of `nearest` is a candidate from the list. -/
theorem nearest_mem {T : Type} {xs : List (Option (Nat × T))} {v c : Nat} {t : T}
    (h : nearest xs v = some (c, t)) : some (c, t) ∈ xs := by
  rcases nearestGo_pair_cases v xs (2 ^ 32 - 1) none with hp | ⟨c', t', h1, h2⟩
  · rw [nearest, hp] at h
    exact absurd h (by simp)
  · rw [nearest, h1] at h
    have hct := Option.some.inj h
    have hc : c' = c := congrArg Prod.fst hct
    have ht : t' = t := congrArg Prod.snd hct
    subst hc; subst ht
    exact h2

/-- A `Some` result of `nearest` attains the global minimum distance. -/
theorem nearest_min_le {T : Type} {xs : List (Option (Nat × T))} {v c : Nat} {t : T}
    (h : nearest xs v = some (c, t)) :
    ∀ c' t', some (c', t') ∈ xs → hamming_distance c v ≤ hamming_distance c' v := by
  intro c' t' hmem
  rcases nearestGo_pair_cases v xs (2 ^ 32 - 1) none with hp | ⟨c'', t'', h1, h2⟩
  · rw [nearest, hp] at h
    exact absurd h (by simp)
  · rw [nearest, h1] at h
    have hct := Option.some.inj h
    have hc : c'' = c := congrArg Prod.fst hct
    subst hc
    have := nearestGo_fst_le_dist v xs (2 ^ 32 - 1) none c' t' hmem
    rw [h1] at this
    exact this

/-- Tie-break: every candidate strictly before the winner is strictly
farther from the query. -/
theorem nearest_first {T : Type} {xs : List (Option (Nat × T))} {v c : Nat} {t : T}
    (h : nearest xs v = some (c, t)) :
    ∃ l1 l2, xs = l1 ++ some (c, t) :: l2 ∧
      ∀ c' t', some (c', t') ∈ l1 → hamming_distance c v < hamming_distance c' v := by
  rcases nearestGo_first v xs (2 ^ 32 - 1) none c t h with hb | ⟨l1, l2, h1, _, h3⟩
  · exact absurd hb (by simp)
  · exact ⟨l1, l2, h1, h3⟩

/-- A zero-distance head candidate wins outright. -/
theorem nearest_head_of_dist_zero {T : Type} {c v : Nat} {t : T}
    (xs : List (Option (Nat × T))) (h : hamming_distance c v = 0) :
    nearest (some (c, t) :: xs) v = some (c, t) := by
  rw [nearest]
  simp only [nearestGo]
  rw [if_pos (by rw [h]; norm_num), h]
  rw [nearestGo_eq_of_no_improve v xs 0 (some (c, t)) (fun c' t' _ => by omega)]

/-- `Vec<Option<T>>` collection as done by `iter().map(..).collect()` /
sequential `Option` chaining: first `none` aborts. -/
def collectOpts {α β : Type} (f : α → Option β) : List α → Option (List β)
  | [] => some []
  | a :: as =>
    match f a with
    | none => none
    | some b =>
      match collectOpts f as with
      | none => none
      | some bs => some (b :: bs)

theorem collectOpts_length {α β : Type} (f : α → Option β) :
    ∀ (l : List α) (bs : List β), collectOpts f l = some bs → bs.length = l.length := by
  intro l
  induction l with
  | nil => intro bs h; cases h; rfl
  | cons a as ih =>
    intro bs h
    simp only [collectOpts] at h
    rcases hfa : f a with _ | b
    · rw [hfa] at h; exact absurd h (by simp)
    · rw [hfa] at h
      rcases hca : collectOpts f as with _ | bs'
      · rw [hca] at h; exact absurd h (by simp)
      · rw [hca] at h
        cases h
        simp [ih bs' hca]

theorem collectOpts_getElem {α β : Type} (f : α → Option β) :
    ∀ (l : List α) (bs : List β), collectOpts f l = some bs →
      ∀ (j : Nat) (a : α), l[j]? = some a → ∃ b, bs[j]? = some b ∧ f a = some b := by
  intro l
  induction l with
  | nil => intro bs _ j a h; rw [List.getElem?_nil] at h; exact absurd h (by simp)
  | cons hd tl ih =>
    intro bs hc j a hj
    simp only [collectOpts] at hc
    rcases hfa : f hd with _ | b
    · rw [hfa] at hc; exact absurd hc (by simp)
    · rw [hfa] at hc
      rcases hca : collectOpts f tl with _ | bs'
      · rw [hca] at hc; exact absurd hc (by simp)
      · rw [hca] at hc
        cases hc
        rcases j with _ | j
        · rw [List.getElem?_cons_zero] at hj
          cases hj
          exact ⟨b, List.getElem?_cons_zero, hfa⟩
        · rw [List.getElem?_cons_succ] at hj
          rcases ih bs' hca j a hj with ⟨b', h1, h2⟩
          exact ⟨b', by rw [List.getElem?_cons_succ]; exact h1, h2⟩

theorem collectOpts_mem {α β : Type} (f : α → Option β) :
    ∀ (l : List α) (bs : List β), collectOpts f l = some bs →
      ∀ b ∈ bs, ∃ a ∈ l, f a = some b := by
  intro l
  induction l with
  | nil => intro bs h b hb; cases h; exact absurd hb (List.not_mem_nil b)
  | cons hd tl ih =>
    intro bs hc b hb
    simp only [collectOpts] at hc
    rcases hfa : f hd with _ | b0
    · rw [hfa] at hc; exact absurd hc (by simp)
    · rw [hfa] at hc
      rcases hca : collectOpts f tl with _ | bs'
      · rw [hca] at hc; exact absurd hc (by simp)
      · rw [hca] at hc
        cases hc
        rcases List.mem_cons.mp hb with heq | htl
        · subst heq; exact ⟨hd, List.mem_cons_self _ _, hfa⟩
        · rcases ih bs' hca b htl with ⟨a, h1, h2⟩
          exact ⟨a, List.mem_cons_of_mem _ h1, h2⟩

theorem collectOpts_isSome {α β : Type} (f : α → Option β) :
    ∀ l : List α, (∀ a ∈ l, ∃ b, f a = some b) → ∃ bs, collectOpts f l = some bs := by
  intro l
  induction l with
  | nil => intro _; exact ⟨[], rfl⟩
  | cons hd tl ih =>
    intro h
    rcases h hd (List.mem_cons_self _ _) with ⟨b, hb⟩
    rcases ih (fun a ha => h a (List.mem_cons_of_mem _ ha)) with ⟨bs, hbs⟩
    exact ⟨b :: bs, by simp only [collectOpts, hb, hbs]⟩

/-- `HammingTable<T>` from `src/lib.rs` lines 36-39. -/
structure HammingTable (T : Type) where
  hyperplanes : List Nat
  buckets : List (List (Option (Nat × T)))

/-- `HammingTable::new(k)` from `src/lib.rs` lines 42-54, with the shuffled
position vector `b` (the result of `(0..128).collect()` + `shuffle`) passed
explicitly.  Checked semantics: the slice `b[0..k]` panics for
`k > b.len()`; `1u128 << a` panics for `a ≥ 128`; the bucket count
`1usize << k` panics for `k ≥ 64`. -/
def HammingTable.new? (T : Type) (b : List Nat) (k : Nat) : Option (HammingTable T) :=
  if k ≤ b.length then
    if (b.take k).all (fun a => decide (a < 128)) then
      if k < 64 then
        some { hyperplanes := (b.take k).map (fun a => 2 ^ a),
               buckets := List.replicate (2 ^ k) [] }
      else none
    else none
  else none

/-- `HammingTable::insert` from `src/lib.rs` lines 60-63. -/
def HammingTable.insert? {T : Type} (t : HammingTable T) (k : Nat) (v : T) :
    Option (HammingTable T) :=
  match hashChk t.hyperplanes k with
  | none => none
  | some h =>
    match t.buckets[h]? with
    | none => none
    | some bkt =>
      some { hyperplanes := t.hyperplanes, buckets := t.buckets.set h (bkt ++ [some (k, v)]) }

/-- `HammingTable::get` from `src/lib.rs` lines 65-68.  The outer `Option` is
the panic monad (hash shift overflow / bucket index), the inner `Option` the
"no match" result. -/
def HammingTable.get? {T : Type} (t : HammingTable T) (k : Nat) :
    Option (Option (Nat × T)) :=
  match hashChk t.hyperplanes k with
  | none => none
  | some h =>
    match t.buckets[h]? with
    | none => none
    | some bkt => some (nearest bkt k)

/-- `HammingLSH<T>` from `src/lib.rs` lines 71-74: L tables storing `usize`
payload indices plus the shared value store. -/
structure HammingLSH (T : Type) where
  tables : List (HammingTable Nat)
  data : List T

/-- `HammingLSH::new(k, l)` from `src/lib.rs` lines 77-86, with the `l`
sampled shuffle vectors passed explicitly (one per constructed table). -/
def HammingLSH.new? (T : Type) (bs : List (List Nat)) (k : Nat) :
    Option (HammingLSH T) :=
  match collectOpts (fun b => HammingTable.new? Nat b k) bs with
  | none => none
  | some ts => some { tables := ts, data := [] }

/-- `HammingLSH::insert` from `src/lib.rs` lines 88-94: push the payload,
then insert `(code, index)` into every table. -/
def HammingLSH.insert? {T : Type} (s : HammingLSH T) (k : Nat) (v : T) :
    Option (HammingLSH T) :=
  match collectOpts (fun t => t.insert? k s.data.length) s.tables with
  | none => none
  | some ts => some { tables := ts, data := s.data ++ [v] }

/-- `HammingLSH::get` from `src/lib.rs` lines 96-104: collect the per-table
local results, take `nearest` across them, then dereference the winner's
index into the value store. -/
def HammingLSH.get? {T : Type} (s : HammingLSH T) (v : Nat) :
    Option (Option (Nat × T)) :=
  match collectOpts (fun t => t.get? v) s.tables with
  | none => none
  | some c =>
    match nearest c v with
    | some (k, i) =>
      match s.data[i]? with
      | some d => some (some (k, d))
      | none => none
    | none => some none

/-- A sequence of table inserts (`foldlM` over the panic monad). -/
def insertsTable? {T : Type} (t : HammingTable T) : List (Nat × T) → Option (HammingTable T)
  | [] => some t
  | p :: ps =>
    match t.insert? p.1 p.2 with
    | none => none
    | some t' => insertsTable? t' ps

/-- Construction followed by a sequence of inserts: every reachable state of
a single table is `runTable? T b k ps` for some shuffle vector `b` and
insert sequence `ps`. -/
def runTable? (T : Type) (b : List Nat) (k : Nat) (ps : List (Nat × T)) :
    Option (HammingTable T) :=
  match HammingTable.new? T b k with
  | none => none
  | some t => insertsTable? t ps

/-- A sequence of ensemble inserts. -/
def insertsLSH? {T : Type} (s : HammingLSH T) : List (Nat × T) → Option (HammingLSH T)
  | [] => some s
  | p :: ps =>
    match s.insert? p.1 p.2 with
    | none => none
    | some s' => insertsLSH? s' ps

/-- Construction followed by a sequence of inserts: every reachable state of
the ensemble is `runLSH? T bs k ps`. -/
def runLSH? (T : Type) (bs : List (List Nat)) (k : Nat) (ps : List (Nat × T)) :
    Option (HammingLSH T) :=
  match HammingLSH.new? T bs k with
  | none => none
  | some s => insertsLSH? s ps

/-- The codes of `ps` paired with their value-store slots starting at
`start`: ensemble insert number `j` stores payload index `start + j` in
every table. -/
def indexedCodes {T : Type} (start : Nat) : List (Nat × T) → List (Nat × Nat)
  | [] => []
  | p :: ps => (p.1, start) :: indexedCodes (start + 1) ps

theorem HammingTable.new?_eq_some {T : Type} {b : List Nat} {k : Nat} {t : HammingTable T} :
    HammingTable.new? T b k = some t ↔
      k ≤ b.length ∧ (∀ a ∈ b.take k, a < 128) ∧ k < 64 ∧
        t = { hyperplanes := (b.take k).map (fun a => 2 ^ a),
              buckets := List.replicate (2 ^ k) [] } := by
  unfold HammingTable.new?
  constructor
  · intro h
    by_cases h1 : k ≤ b.length
    · rw [if_pos h1] at h
      by_cases h2 : (b.take k).all (fun a => decide (a < 128))
      · rw [if_pos h2] at h
        by_cases h3 : k < 64
        · rw [if_pos h3] at h
          refine ⟨h1, ?_, h3, (Option.some.inj h).symm⟩
          intro a ha
          have := List.all_eq_true.mp h2 a ha
          exact of_decide_eq_true this
        · rw [if_neg h3] at h; exact absurd h (by simp)
      · rw [if_neg h2] at h; exact absurd h (by simp)
    · rw [if_neg h1] at h; exact absurd h (by simp)
  · intro ⟨h1, h2, h3, h4⟩
    rw [if_pos h1, if_pos (List.all_eq_true.mpr (fun a ha => decide_eq_true (h2 a ha))),
      if_pos h3, h4]

theorem HammingTable.insert?_eq_some {T : Type} {t t' : HammingTable T} {c : Nat} {v : T} :
    t.insert? c v = some t' ↔
      t.hyperplanes.length ≤ 32 ∧
      ∃ bkt, t.buckets[hash t.hyperplanes c]? = some bkt ∧
        t' = { hyperplanes := t.hyperplanes,
               buckets := t.buckets.set (hash t.hyperplanes c) (bkt ++ [some (c, v)]) } := by
  unfold HammingTable.insert? hashChk
  by_cases h1 : t.hyperplanes.length ≤ 32
  · rw [if_pos h1]
    simp only []
    rcases hb : t.buckets[hash t.hyperplanes c]? with _ | bkt
    · simp [h1]
    · constructor
      · intro h
        exact ⟨h1, bkt, rfl, (Option.some.inj h).symm⟩
      · intro ⟨_, bkt', hb', ht'⟩
        rw [Option.some.inj hb']
        rw [ht']
  · rw [if_neg h1]
    simp only []
    constructor
    · intro h; exact absurd h (by simp)
    · intro ⟨h, _⟩; exact absurd h h1

/-- Effect of a table-insert sequence on the hyperplanes and on each bucket:
each insert appends its entry to exactly the bucket its code hashes to. -/
theorem insertsTable?_spec {U : Type} :
    ∀ (ps : List (Nat × U)) (t t' : HammingTable U),
      insertsTable? t ps = some t' →
      t'.hyperplanes = t.hyperplanes ∧ t'.buckets.length = t.buckets.length ∧
      ∀ (h : Nat) (bkt : List (Option (Nat × U))), t.buckets[h]? = some bkt →
        t'.buckets[h]? =
          some (bkt ++
            (ps.filter (fun q => decide (hash t.hyperplanes q.1 = h))).map
              (fun q => some q)) := by
  intro ps
  induction ps with
  | nil =>
    intro t t' h
    cases h
    exact ⟨rfl, rfl, fun h bkt hb => by simp [hb]⟩
  | cons p ps ih =>
    intro t t' h
    simp only [insertsTable?] at h
    rcases hins : t.insert? p.1 p.2 with _ | t1
    · rw [hins] at h; exact absurd h (by simp)
    · rw [hins] at h
      rcases HammingTable.insert?_eq_some.mp hins with ⟨hlen, bkt0, hb0, ht1⟩
      rcases ih t1 t' h with ⟨hplanes, hblen, hbuckets⟩
      have ht1planes : t1.hyperplanes = t.hyperplanes := by rw [ht1]
      have ht1blen : t1.buckets.length = t.buckets.length := by rw [ht1]; simp
      refine ⟨hplanes.trans ht1planes, hblen.trans ht1blen, ?_⟩
      intro h' bkt hb
      by_cases heq : hash t.hyperplanes p.1 = h'
      · have hbfind : bkt0 = bkt := by
          rw [heq] at hb0
          exact Option.some.inj (hb0.symm.trans hb)
        subst hbfind
        have hlt : h' < t.buckets.length := by
          by_contra hge
          rw [List.getElem?_eq_none (by omega)] at hb
          exact absurd hb (by simp)
        have ht1b : t1.buckets[h']? = some (bkt0 ++ [some (p.1, p.2)]) := by
          rw [ht1]
          simp only []
          rw [heq]
          exact List.getElem?_set_self (by simpa using hlt)
        have := hbuckets h' _ ht1b
        rw [this, ht1planes]
        rw [List.filter_cons]
        rw [if_pos (by simpa using heq)]
        simp only [List.map_cons]
        rw [List.append_assoc]
        rfl
      · have ht1b : t1.buckets[h']? = some bkt := by
          rw [ht1]
          simp only []
          rw [List.getElem?_set_ne heq]
          exact hb
        have := hbuckets h' _ ht1b
        rw [this, ht1planes]
        rw [List.filter_cons]
        rw [if_neg (by simpa using heq)]

/-- With at most 32 hyperplanes and a full bucket array, every insert
sequence succeeds. -/
theorem insertsTable?_isSome {U : Type} :
    ∀ (ps : List (Nat × U)) (t : HammingTable U),
      t.hyperplanes.length ≤ 32 → t.buckets.length = 2 ^ t.hyperplanes.length →
      ∃ t', insertsTable? t ps = some t' := by
  intro ps
  induction ps with
  | nil => intro t _ _; exact ⟨t, rfl⟩
  | cons p ps ih =>
    intro t hlen hblen
    have hlt : hash t.hyperplanes p.1 < t.buckets.length := by
      rw [hblen]; exact hash_lt _ _
    have hb : t.buckets[hash t.hyperplanes p.1]? = some t.buckets[hash t.hyperplanes p.1] :=
      List.getElem?_eq_getElem hlt
    have hins : t.insert? p.1 p.2 = some
        { hyperplanes := t.hyperplanes,
          buckets := t.buckets.set (hash t.hyperplanes p.1)
            (t.buckets[hash t.hyperplanes p.1] ++ [some (p.1, p.2)]) } :=
      HammingTable.insert?_eq_some.mpr ⟨hlen, _, hb, rfl⟩
    rcases ih ⟨t.hyperplanes, t.buckets.set (hash t.hyperplanes p.1)
            (t.buckets[hash t.hyperplanes p.1] ++ [some (p.1, p.2)])⟩
        (by simpa using hlen) (by simpa using hblen) with ⟨t', ht'⟩
    exact ⟨t', by simp only [insertsTable?, hins]; exact ht'⟩

/-- Every reachable single-table state: hyperplanes fixed by construction,
bucket array of size `2 ^ k`, and each bucket holding exactly the inserted
pairs hashing to it, in insertion order. -/
theorem runTable?_spec {U : Type} {b : List Nat} {k : Nat} {ps : List (Nat × U)}
    {t : HammingTable U} (h : runTable? U b k ps = some t) :
    t.hyperplanes = (b.take k).map (fun a => 2 ^ a) ∧
    t.hyperplanes.length = k ∧
    t.buckets.length = 2 ^ k ∧
    ∀ h' : Nat, h' < 2 ^ k →
      t.buckets[h']? =
        some ((ps.filter (fun q => decide (hash t.hyperplanes q.1 = h'))).map
          (fun q => some q)) := by
  unfold runTable? at h
  rcases hnew : HammingTable.new? U b k with _ | t0
  · rw [hnew] at h; exact absurd h (by simp)
  · rw [hnew] at h
    rcases HammingTable.new?_eq_some.mp hnew with ⟨hkb, _, _, ht0⟩
    rcases insertsTable?_spec ps t0 t h with ⟨hplanes, hblen, hbuckets⟩
    have ht0planes : t0.hyperplanes = (b.take k).map (fun a => 2 ^ a) := by rw [ht0]
    have hp : t.hyperplanes = (b.take k).map (fun a => 2 ^ a) := hplanes.trans ht0planes
    have hplen : t.hyperplanes.length = k := by
      rw [hp, List.length_map, List.length_take]
      omega
    have hblen' : t.buckets.length = 2 ^ k := by
      rw [hblen, ht0]; simp
    refine ⟨hp, hplen, hblen', ?_⟩
    intro h' hlt
    have ht0b : t0.buckets[h']? = some [] := by
      rw [ht0]
      simpa using List.getElem?_replicate_of_lt hlt
    have := hbuckets h' [] ht0b
    rw [this, hplanes]
    simp

/-- On a well-formed table, `get` computes the bucket of the query's hash and
returns `nearest` of exactly that bucket. -/
theorem HammingTable.get?_eq {T : Type} {t : HammingTable T} (q : Nat)
    (hlen : t.hyperplanes.length ≤ 32)
    (hblen : t.buckets.length = 2 ^ t.hyperplanes.length) :
    ∃ bkt, t.buckets[hash t.hyperplanes q]? = some bkt ∧
      t.get? q = some (nearest bkt q) := by
  have hlt : hash t.hyperplanes q < t.buckets.length := by
    rw [hblen]; exact hash_lt _ _
  refine ⟨t.buckets[hash t.hyperplanes q], List.getElem?_eq_getElem hlt, ?_⟩
  unfold HammingTable.get? hashChk
  rw [if_pos hlen]
  simp only []
  rw [List.getElem?_eq_getElem hlt]

theorem HammingTable.insert?_preserves {T : Type} {t t' : HammingTable T} {c : Nat} {v : T}
    (h : t.insert? c v = some t') :
    t'.hyperplanes = t.hyperplanes ∧ t'.buckets.length = t.buckets.length := by
  rcases HammingTable.insert?_eq_some.mp h with ⟨_, bkt, _, ht'⟩
  rw [ht']
  exact ⟨rfl, by simp⟩

theorem HammingLSH.insert?_some_iff {T : Type} {s s' : HammingLSH T} {c : Nat} {v : T} :
    s.insert? c v = some s' ↔
      ∃ ts, collectOpts (fun t => t.insert? c s.data.length) s.tables = some ts ∧
        s' = { tables := ts, data := s.data ++ [v] } := by
  unfold HammingLSH.insert?
  constructor
  · intro h
    rcases hc : collectOpts (fun t => t.insert? c s.data.length) s.tables with _ | ts
    · rw [hc] at h; exact absurd h (by simp)
    · rw [hc] at h
      exact ⟨ts, hc, (Option.some.inj h).symm⟩
  · intro ⟨ts, h1, h2⟩
    rw [h1, h2]

/-- Effect of an ensemble-insert sequence: the value store grows by the
payloads in order, and every table undergoes the corresponding sequence of
`(code, slot)` table inserts. -/
theorem insertsLSH?_spec {T : Type} :
    ∀ (ps : List (Nat × T)) (s s' : HammingLSH T),
      insertsLSH? s ps = some s' →
      s'.data = s.data ++ ps.map (fun p => p.2) ∧
      s'.tables.length = s.tables.length ∧
      ∀ (j : Nat) (t : HammingTable Nat), s.tables[j]? = some t →
        ∃ t', s'.tables[j]? = some t' ∧
          insertsTable? t (indexedCodes s.data.length ps) = some t' := by
  intro ps
  induction ps with
  | nil =>
    intro s s' h
    cases h
    exact ⟨by simp, rfl, fun j t hj => ⟨t, hj, rfl⟩⟩
  | cons p ps ih =>
    intro s s' h
    simp only [insertsLSH?] at h
    rcases hins : s.insert? p.1 p.2 with _ | s1
    · rw [hins] at h; exact absurd h (by simp)
    · rw [hins] at h
      rcases HammingLSH.insert?_some_iff.mp hins with ⟨ts, hcoll, hs1⟩
      rcases ih s1 s' h with ⟨hdata, hlen, htables⟩
      have hs1data : s1.data = s.data ++ [p.2] := by rw [hs1]
      have hs1tables : s1.tables = ts := by rw [hs1]
      refine ⟨?_, ?_, ?_⟩
      · rw [hdata, hs1data]
        simp
      · rw [hlen, hs1tables, collectOpts_length _ _ _ hcoll]
      · intro j t hj
        rcases collectOpts_getElem _ _ _ hcoll j t hj with ⟨t1, hts, hinst⟩
        rcases htables j t1 (by rw [hs1tables]; exact hts) with ⟨t', h1, h2⟩
        refine ⟨t', h1, ?_⟩
        simp only [indexedCodes, insertsTable?, hinst]
        have : s1.data.length = s.data.length + 1 := by rw [hs1data]; simp
        rw [← this]
        exact h2

/-- Every reachable ensemble state in terms of its parts: the value store is
exactly the payload sequence, and table `j` is the single-table run over the
`(code, slot)` pairs with `j`-th shuffle vector. -/
theorem runLSH?_spec {T : Type} {bs : List (List Nat)} {k : Nat} {ps : List (Nat × T)}
    {s : HammingLSH T} (h : runLSH? T bs k ps = some s) :
    s.data = ps.map (fun p => p.2) ∧
    s.tables.length = bs.length ∧
    ∀ (j : Nat) (b : List Nat), bs[j]? = some b →
      ∃ t, s.tables[j]? = some t ∧ runTable? Nat b k (indexedCodes 0 ps) = some t := by
  unfold runLSH? at h
  rcases hnew : HammingLSH.new? T bs k with _ | s0
  · rw [hnew] at h; exact absurd h (by simp)
  · rw [hnew] at h
    unfold HammingLSH.new? at hnew
    rcases hcoll : collectOpts (fun b => HammingTable.new? Nat b k) bs with _ | ts0
    · rw [hcoll] at hnew; exact absurd hnew (by simp)
    · rw [hcoll] at hnew
      have hs0 : s0 = { tables := ts0, data := ([] : List T) } := (Option.some.inj hnew).symm
      rcases insertsLSH?_spec ps s0 s h with ⟨hdata, hlen, htables⟩
      have hs0tables : s0.tables = ts0 := by rw [hs0]
      have hs0data : s0.data = [] := by rw [hs0]
      refine ⟨by rw [hdata, hs0data]; simp, ?_, ?_⟩
      · rw [hlen, hs0tables, collectOpts_length _ _ _ hcoll]
      · intro j b hj
        rcases collectOpts_getElem _ _ _ hcoll j b hj with ⟨t0, hts, hnewt⟩
        rcases htables j t0 (by rw [hs0tables]; exact hts) with ⟨t', h1, h2⟩
        refine ⟨t', h1, ?_⟩
        unfold runTable?
        rw [hnewt]
        rw [hs0data] at h2
        exact h2

theorem indexedCodes_mem {T : Type} :
    ∀ (ps : List (Nat × T)) (start : Nat) (c i : Nat),
      (c, i) ∈ indexedCodes start ps →
      start ≤ i ∧ i < start + ps.length ∧
        ∃ p ∈ ps, p.1 = c := by
  intro ps
  induction ps with
  | nil => intro start c i h; exact absurd h (List.not_mem_nil _)
  | cons p ps ih =>
    intro start c i h
    simp only [indexedCodes] at h
    rcases List.mem_cons.mp h with heq | htl
    · have hc : c = p.1 := congrArg Prod.fst heq
      have hi : i = start := congrArg Prod.snd heq
      subst hc; subst hi
      exact ⟨Nat.le_refl _, by simp, p, List.mem_cons_self _ _, rfl⟩
    · rcases ih (start + 1) c i htl with ⟨h1, h2, p', hp', hc⟩
      exact ⟨by omega, by simp only [List.length_cons]; omega,
        p', List.mem_cons_of_mem _ hp', hc⟩

theorem indexedCodes_length {T : Type} :
    ∀ (ps : List (Nat × T)) (start : Nat), (indexedCodes start ps).length = ps.length := by
  intro ps
  induction ps with
  | nil => intro start; rfl
  | cons p ps ih => intro start; simp [indexedCodes, ih]

/-- With well-formed tables every ensemble-insert sequence succeeds. -/
theorem insertsLSH?_isSome {T : Type} :
    ∀ (ps : List (Nat × T)) (s : HammingLSH T),
      (∀ t ∈ s.tables, t.hyperplanes.length ≤ 32 ∧
        t.buckets.length = 2 ^ t.hyperplanes.length) →
      ∃ s', insertsLSH? s ps = some s' := by
  intro ps
  induction ps with
  | nil => intro s _; exact ⟨s, rfl⟩
  | cons p ps ih =>
    intro s hwf
    have hstep : ∀ t ∈ s.tables, ∃ t', t.insert? p.1 s.data.length = some t' := by
      intro t ht
      rcases hwf t ht with ⟨hlen, hblen⟩
      have hlt : hash t.hyperplanes p.1 < t.buckets.length := by
        rw [hblen]; exact hash_lt _ _
      exact ⟨_, HammingTable.insert?_eq_some.mpr
        ⟨hlen, _, List.getElem?_eq_getElem hlt, rfl⟩⟩
    rcases collectOpts_isSome _ s.tables hstep with ⟨ts, hts⟩
    have hs1 : s.insert? p.1 p.2 = some { tables := ts, data := s.data ++ [p.2] } :=
      HammingLSH.insert?_some_iff.mpr ⟨ts, hts, rfl⟩
    have hwf1 : ∀ t' ∈ ts, t'.hyperplanes.length ≤ 32 ∧
        t'.buckets.length = 2 ^ t'.hyperplanes.length := by
      intro t' ht'
      rcases collectOpts_mem _ _ _ hts t' ht' with ⟨t, htmem, hins⟩
      rcases HammingTable.insert?_preserves hins with ⟨hp, hb⟩
      rcases hwf t htmem with ⟨h1, h2⟩
      rw [hp, hb]
      exact ⟨h1, h2⟩
    rcases ih { tables := ts, data := s.data ++ [p.2] } hwf1 with ⟨s', hs'⟩
    exact ⟨s', by simp only [insertsLSH?, hs1]; exact hs'⟩

namespace Main

/-- `HammingTable<T>` from `src/main.rs` lines 23-26: buckets store plain
`(code, payload)` pairs (no `Option` wrapper). -/
structure HammingTable (T : Type) where
  hyperplanes : List Nat
  buckets : List (List (Nat × T))

/-- `HammingTable::new(k)` from `src/main.rs` lines 29-41 (same code as the
library version, plain-pair buckets). -/
def HammingTable.new? (T : Type) (b : List Nat) (k : Nat) : Option (HammingTable T) :=
  if k ≤ b.length then
    if (b.take k).all (fun a => decide (a < 128)) then
      if k < 64 then
        some { hyperplanes := (b.take k).map (fun a => 2 ^ a),
               buckets := List.replicate (2 ^ k) [] }
      else none
    else none
  else none

/-- `HammingTable::insert` from `src/main.rs` lines 47-50. -/
def HammingTable.insert? {T : Type} (t : HammingTable T) (k : Nat) (v : T) :
    Option (HammingTable T) :=
  match hashChk t.hyperplanes k with
  | none => none
  | some h =>
    match t.buckets[h]? with
    | none => none
    | some bkt =>
      some { hyperplanes := t.hyperplanes, buckets := t.buckets.set h (bkt ++ [(k, v)]) }

/-- In-place strict-min loop of `HammingTable::get` from `src/main.rs`
lines 52-64, over plain pairs. -/
def nearestPairsGo {T : Type} (v : Nat) :
    List (Nat × T) → Nat → Option (Nat × T) → Nat × Option (Nat × T)
  | [], min, best => (min, best)
  | (k, i) :: ns, min, best =>
      if hamming_distance k v < min then
        nearestPairsGo v ns (hamming_distance k v) (some (k, i))
      else nearestPairsGo v ns min best

/-- `HammingTable::get` from `src/main.rs` lines 52-64. -/
def HammingTable.get? {T : Type} (t : HammingTable T) (k : Nat) :
    Option (Option (Nat × T)) :=
  match hashChk t.hyperplanes k with
  | none => none
  | some h =>
    match t.buckets[h]? with
    | none => none
    | some bkt => some ((nearestPairsGo k bkt (2 ^ 32 - 1) none).2)

/-- `HammingLSH<T>` from `src/main.rs` lines 67-70. -/
structure HammingLSH (T : Type) where
  tables : List (Main.HammingTable Nat)
  data : List T

/-- `HammingLSH::new` from `src/main.rs` lines 73-82. -/
def HammingLSH.new? (T : Type) (bs : List (List Nat)) (k : Nat) :
    Option (HammingLSH T) :=
  match collectOpts (fun b => Main.HammingTable.new? Nat b k) bs with
  | none => none
  | some ts => some { tables := ts, data := [] }

/-- `HammingLSH::insert` from `src/main.rs` lines 84-90. -/
def HammingLSH.insert? {T : Type} (s : HammingLSH T) (k : Nat) (v : T) :
    Option (HammingLSH T) :=
  match collectOpts (fun t => t.insert? k s.data.length) s.tables with
  | none => none
  | some ts => some { tables := ts, data := s.data ++ [v] }

/-- In-place min loop of `HammingLSH::get` from `src/main.rs` lines 92-106:
unlike the library version, the value store is dereferenced at every
improvement, not only for the final winner. -/
def lshGetGo {T : Type} (data : List T) (v : Nat) :
    List (Option (Nat × Nat)) → Nat → Option (Nat × T) → Option (Option (Nat × T))
  | [], _, best => some best
  | none :: ns, min, best => lshGetGo data v ns min best
  | some (k, i) :: ns, min, best =>
      if hamming_distance k v < min then
        match data[i]? with
        | none => none
        | some d => lshGetGo data v ns (hamming_distance k v) (some (k, d))
      else lshGetGo data v ns min best

/-- `HammingLSH::get` from `src/main.rs` lines 92-106. -/
def HammingLSH.get? {T : Type} (s : HammingLSH T) (v : Nat) :
    Option (Option (Nat × T)) :=
  match collectOpts (fun t => t.get? v) s.tables with
  | none => none
  | some c => lshGetGo s.data v c (2 ^ 32 - 1) none

/-- A sequence of ensemble inserts on the `src/main.rs` prototype. -/
def insertsLSH? {T : Type} (s : HammingLSH T) : List (Nat × T) → Option (HammingLSH T)
  | [] => some s
  | p :: ps =>
    match s.insert? p.1 p.2 with
    | none => none
    | some s' => insertsLSH? s' ps

/-- Construction plus inserts on the `src/main.rs` prototype. -/
def runLSH? (T : Type) (bs : List (List Nat)) (k : Nat) (ps : List (Nat × T)) :
    Option (HammingLSH T) :=
  match Main.HammingLSH.new? T bs k with
  | none => none
  | some s => Main.insertsLSH? s ps

end Main

/-- Abstraction of a `src/main.rs` table as a `src/lib.rs` table: wrap every
bucket entry in `Some`. -/
def absTable {T : Type} (t : Main.HammingTable T) : HammingTable T :=
  { hyperplanes := t.hyperplanes,
    buckets := t.buckets.map (fun bkt => bkt.map (fun p => some p)) }

/-- Abstraction of a `src/main.rs` ensemble as a `src/lib.rs` ensemble. -/
def absLSH {T : Type} (m : Main.HammingLSH T) : HammingLSH T :=
  { tables := m.tables.map absTable, data := m.data }

theorem collectOpts_congr_map {α β γ : Type} {f : α → Option β} {g : α → Option γ}
    {φ : γ → β} (hfg : ∀ a, f a = (g a).map φ) :
    ∀ l : List α, collectOpts f l = (collectOpts g l).map (List.map φ) := by
  intro l
  induction l with
  | nil => rfl
  | cons a as ih =>
    simp only [collectOpts, hfg a, ih]
    rcases g a with _ | b
    · rfl
    · rcases collectOpts g as with _ | bs
      · rfl
      · rfl

theorem collectOpts_map {α β γ : Type} (f : β → Option γ) (φ : α → β) :
    ∀ l : List α, collectOpts f (l.map φ) = collectOpts (fun a => f (φ a)) l := by
  intro l
  induction l with
  | nil => rfl
  | cons a as ih => simp only [List.map_cons, collectOpts, ih]

theorem absTable_new (T : Type) (b : List Nat) (k : Nat) :
    HammingTable.new? T b k = (Main.HammingTable.new? T b k).map absTable := by
  unfold HammingTable.new? Main.HammingTable.new? absTable
  by_cases h1 : k ≤ b.length
  · rw [if_pos h1, if_pos h1]
    by_cases h2 : (b.take k).all (fun a => decide (a < 128))
    · rw [if_pos h2, if_pos h2]
      by_cases h3 : k < 64
      · rw [if_pos h3, if_pos h3]
        simp
      · rw [if_neg h3, if_neg h3]; rfl
    · rw [if_neg h2, if_neg h2]; rfl
  · rw [if_neg h1, if_neg h1]; rfl

theorem absTable_insert {T : Type} (t : Main.HammingTable T) (c : Nat) (v : T) :
    (absTable t).insert? c v = (t.insert? c v).map absTable := by
  unfold HammingTable.insert? Main.HammingTable.insert? absTable
  simp only []
  rcases hashChk t.hyperplanes c with _ | h
  · rfl
  · simp only [List.getElem?_map]
    rcases hb : t.buckets[h]? with _ | bkt
    · rfl
    · simp only [Option.map_some']
      simp [List.map_set]

theorem nearestPairsGo_eq {T : Type} (v : Nat) :
    ∀ (bkt : List (Nat × T)) (m : Nat) (b : Option (Nat × T)),
      nearestGo v (bkt.map (fun p => some p)) m b = Main.nearestPairsGo v bkt m b := by
  intro bkt
  induction bkt with
  | nil => intro m b; rfl
  | cons p ps ih =>
    intro m b
    rcases p with ⟨k, i⟩
    simp only [List.map_cons, nearestGo, Main.nearestPairsGo]
    split
    · exact ih _ _
    · exact ih m b

theorem absTable_get {T : Type} (t : Main.HammingTable T) (q : Nat) :
    (absTable t).get? q = t.get? q := by
  unfold HammingTable.get? Main.HammingTable.get? absTable
  simp only []
  rcases hashChk t.hyperplanes q with _ | h
  · rfl
  · simp only [List.getElem?_map]
    rcases hb : t.buckets[h]? with _ | bkt
    · rfl
    · simp only [Option.map_some']
      unfold nearest
      rw [nearestPairsGo_eq]

theorem absLSH_new (T : Type) (bs : List (List Nat)) (k : Nat) :
    HammingLSH.new? T bs k = (Main.HammingLSH.new? T bs k).map absLSH := by
  unfold HammingLSH.new? Main.HammingLSH.new?
  rw [collectOpts_congr_map (fun b => absTable_new Nat b k) bs]
  rcases collectOpts (fun b => Main.HammingTable.new? Nat b k) bs with _ | ts
  · rfl
  · rfl

theorem absLSH_insert {T : Type} (m : Main.HammingLSH T) (c : Nat) (v : T) :
    (absLSH m).insert? c v = (m.insert? c v).map absLSH := by
  unfold HammingLSH.insert? Main.HammingLSH.insert? absLSH
  simp only []
  rw [collectOpts_map,
    collectOpts_congr_map (fun t => absTable_insert t c m.data.length) m.tables]
  cases collectOpts (fun t => t.insert? c m.data.length) m.tables with
  | none => rfl
  | some ts => rfl

theorem absLSH_insertsLSH {T : Type} :
    ∀ (ps : List (Nat × T)) (m : Main.HammingLSH T),
      insertsLSH? (absLSH m) ps = (Main.insertsLSH? m ps).map absLSH := by
  intro ps
  induction ps with
  | nil => intro m; rfl
  | cons p ps ih =>
    intro m
    simp only [insertsLSH?, Main.insertsLSH?]
    rw [absLSH_insert]
    rcases m.insert? p.1 p.2 with _ | m'
    · rfl
    · exact ih m'

/-- The two prototypes construct and fill abstraction-related states from
the same shuffle vectors and insert sequence. -/
theorem absLSH_run (T : Type) (bs : List (List Nat)) (k : Nat) (ps : List (Nat × T)) :
    runLSH? T bs k ps = (Main.runLSH? T bs k ps).map absLSH := by
  unfold runLSH? Main.runLSH?
  rw [absLSH_new]
  rcases Main.HammingLSH.new? T bs k with _ | m
  · rfl
  · exact absLSH_insertsLSH ps m

theorem HammingTable.get?_eq_some {T : Type} {t : HammingTable T} {q : Nat}
    {r : Option (Nat × T)} :
    t.get? q = some r ↔
      t.hyperplanes.length ≤ 32 ∧
      ∃ bkt, t.buckets[hash t.hyperplanes q]? = some bkt ∧ r = nearest bkt q := by
  unfold HammingTable.get? hashChk
  by_cases h1 : t.hyperplanes.length ≤ 32
  · rw [if_pos h1]
    simp only []
    rcases hb : t.buckets[hash t.hyperplanes q]? with _ | bkt
    · constructor
      · intro h; exact absurd h (by simp)
      · intro ⟨_, bkt, hb', _⟩; exact absurd hb' (by simp)
    · constructor
      · intro h; exact ⟨h1, bkt, rfl, (Option.some.inj h).symm⟩
      · intro ⟨_, bkt', hb', hr⟩
        rw [hr, ← Option.some.inj hb']
  · rw [if_neg h1]
    simp only []
    constructor
    · intro h; exact absurd h (by simp)
    · intro ⟨h, _⟩; exact absurd h h1

/-- Every payload index stored in any bucket of any table of a reachable
ensemble is strictly below the value-store length. -/
theorem runLSH?_stored_indices {T : Type} {bs : List (List Nat)} {k : Nat}
    {ps : List (Nat × T)} {s : HammingLSH T} (h : runLSH? T bs k ps = some s) :
    ∀ t ∈ s.tables, ∀ bkt ∈ t.buckets, ∀ e ∈ bkt,
      ∃ c i, e = some (c, i) ∧ i < s.data.length := by
  rcases runLSH?_spec h with ⟨hdata, hlen, htables⟩
  intro t ht bkt hbkt e he
  rcases List.mem_iff_getElem?.mp ht with ⟨j, hj⟩
  have hjlt : j < bs.length := by
    rw [← hlen]
    rcases List.getElem?_eq_some.mp hj with ⟨hlt, _⟩
    exact hlt
  rcases htables j bs[j] (List.getElem?_eq_getElem hjlt) with ⟨t', ht', hrt⟩
  have htt : t' = t := Option.some.inj (ht'.symm.trans hj)
  subst htt
  rcases runTable?_spec hrt with ⟨_, _, hblen, hbuckets⟩
  rcases List.mem_iff_getElem?.mp hbkt with ⟨h', hh'⟩
  have hh'lt : h' < 2 ^ k := by
    rw [← hblen]
    rcases List.getElem?_eq_some.mp hh' with ⟨hlt, _⟩
    exact hlt
  have hcontents := hbuckets h' hh'lt
  have hbkteq := Option.some.inj (hcontents.symm.trans hh')
  rw [← hbkteq] at he
  rcases List.mem_map.mp he with ⟨p, hp, hpe⟩
  rcases indexedCodes_mem ps 0 p.1 p.2 (by
    rcases List.mem_filter.mp hp with ⟨hm, _⟩
    exact hm) with ⟨_, hlt2, _⟩
  refine ⟨p.1, p.2, hpe.symm, ?_⟩
  rw [hdata, List.length_map]
  omega

/-- Relation between an undereferenced `(code, index)` best and its
dereferenced `(code, payload)` counterpart. -/
def derefRel {T : Type} (data : List T) : Option (Nat × Nat) → Option (Nat × T) → Prop
  | none, none => True
  | some (c, i), some (c', d) => c' = c ∧ data[i]? = some d
  | _, _ => False

/-- The rolling-dereference loop of `src/main.rs` and the deref-at-the-end
strategy of `src/lib.rs` agree whenever every candidate index is in bounds. -/
theorem lshGetGo_eq_nearestGo {T : Type} (data : List T) (v : Nat) :
    ∀ (cands : List (Option (Nat × Nat))) (m : Nat) (b : Option (Nat × Nat))
      (bd : Option (Nat × T)),
      (∀ c i, some (c, i) ∈ cands → i < data.length) →
      derefRel data b bd →
      ∃ r, Main.lshGetGo data v cands m bd = some r ∧
        derefRel data (nearestGo v cands m b).2 r := by
  intro cands
  induction cands with
  | nil => intro m b bd _ hrel; exact ⟨bd, rfl, hrel⟩
  | cons x ns ih =>
    intro m b bd hbound hrel
    rcases x with _ | ⟨c, i⟩
    · exact ih m b bd (fun c i hmem => hbound c i (List.mem_cons_of_mem _ hmem)) hrel
    · simp only [Main.lshGetGo, nearestGo]
      by_cases hlt : hamming_distance c v < m
      · rw [if_pos hlt, if_pos hlt]
        have hi : i < data.length := hbound c i (List.mem_cons_self _ _)
        have hdata : data[i]? = some data[i] := List.getElem?_eq_getElem hi
        rw [hdata]
        exact ih _ _ _ (fun c' i' hmem => hbound c' i' (List.mem_cons_of_mem _ hmem))
          ⟨rfl, hdata⟩
      · rw [if_neg hlt, if_neg hlt]
        exact ih m b bd (fun c' i' hmem => hbound c' i' (List.mem_cons_of_mem _ hmem)) hrel

/-- On abstraction-related states with in-bounds stored indices, the two
prototypes' ensemble `get` agree exactly. -/
theorem absLSH_get {T : Type} (m : Main.HammingLSH T) (v : Nat)
    (hbound : ∀ t ∈ (absLSH m).tables, ∀ bkt ∈ t.buckets, ∀ e ∈ bkt,
      ∃ c i, e = some (c, i) ∧ i < m.data.length) :
    HammingLSH.get? (absLSH m) v = Main.HammingLSH.get? m v := by
  unfold HammingLSH.get? Main.HammingLSH.get?
  have htab : collectOpts (fun t => t.get? v) (absLSH m).tables =
      collectOpts (fun t => t.get? v) m.tables := by
    show collectOpts (fun t => HammingTable.get? t v) (m.tables.map absTable) = _
    rw [collectOpts_map]
    exact congrFun (congrArg collectOpts (funext fun t => absTable_get t v)) m.tables
  rw [show (absLSH m).tables = m.tables.map absTable from rfl] at htab ⊢
  rw [htab]
  cases hc : collectOpts (fun t => t.get? v) m.tables with
  | none => rfl
  | some cands =>
    have hbound' : ∀ c i, some (c, i) ∈ cands → i < m.data.length := by
      intro c i hmem
      rcases collectOpts_mem _ _ _ hc _ hmem with ⟨t, htm, hget⟩
      have hget' : (absTable t).get? v = some (some (c, i)) := by
        rw [absTable_get]; exact hget
      rcases HammingTable.get?_eq_some.mp hget' with ⟨_, bkt, hb, hr⟩
      have hmem2 : some (c, i) ∈ bkt := nearest_mem hr.symm
      rcases hbound (absTable t) (by
          show absTable t ∈ m.tables.map absTable
          exact List.mem_map_of_mem absTable htm)
        bkt (List.getElem?_mem hb) (some (c, i)) hmem2 with ⟨c', i', he, hlt⟩
      have : (c, i) = (c', i') := Option.some.inj he
      have hii : i = i' := congrArg Prod.snd this
      rw [hii]
      exact hlt
    rcases lshGetGo_eq_nearestGo m.data v cands (2 ^ 32 - 1) none none hbound'
      trivial with ⟨r, hr, hrel⟩
    show (match nearest cands v with
      | some (k, i) =>
        match m.data[i]? with
        | some d => some (some (k, d))
        | none => none
      | none => some none) = Main.lshGetGo m.data v cands (2 ^ 32 - 1) none
    rw [hr]
    rcases hn : nearest cands v with _ | ⟨c, i⟩
    · rw [nearest] at hn
      rw [hn] at hrel
      rcases r with _ | ⟨c', d⟩
      · rfl
      · exact absurd hrel (by simp [derefRel])
    · rw [nearest] at hn
      rw [hn] at hrel
      rcases r with _ | ⟨c', d⟩
      · exact absurd hrel (by simp [derefRel])
      · rcases hrel with ⟨hcc, hdd⟩
        show (match m.data[i]? with
          | some d => some (some (c, d))
          | none => none) = some (some (c', d))
        rw [hdd, hcc]

/-- `hamming_peturb(v, bits)` from `src/lib.rs` lines 107-117, with the
shuffled position vector `b` passed explicitly.  Checked semantics: the
slice `b[0..bits]` panics for `bits > b.len()`; `1u128 << i` panics for
`i ≥ 128`. -/
def hamming_peturb? (b : List Nat) (v : Nat) (bits : Nat) : Option Nat :=
  if bits ≤ b.length then
    if (b.take bits).all (fun a => decide (a < 128)) then
      some ((b.take bits).foldl (fun a i => a ^^^ 2 ^ i) v)
    else none
  else none

theorem foldl_xor_acc :
    ∀ (l : List Nat) (v : Nat),
      l.foldl (fun a i => a ^^^ 2 ^ i) v = v ^^^ l.foldl (fun a i => a ^^^ 2 ^ i) 0 := by
  intro l
  induction l with
  | nil => intro v; simp
  | cons i l ih =>
    intro v
    simp only [List.foldl_cons]
    rw [ih (v ^^^ 2 ^ i), ih (0 ^^^ 2 ^ i), Nat.zero_xor, Nat.xor_assoc]

theorem foldl_xor_testBit :
    ∀ (l : List Nat), l.Nodup →
      ∀ j, (l.foldl (fun a i => a ^^^ 2 ^ i) 0).testBit j = decide (j ∈ l) := by
  intro l
  induction l with
  | nil => intro _ j; simp
  | cons i l ih =>
    intro hnd j
    have hnd' := List.nodup_cons.mp hnd
    simp only [List.foldl_cons, Nat.zero_xor]
    rw [foldl_xor_acc l (2 ^ i), Nat.testBit_xor, ih hnd'.2 j, Nat.testBit_two_pow]
    by_cases hji : i = j
    · subst hji
      have : i ∉ l := hnd'.1
      simp [this]
    · simp [hji, List.mem_cons]
      intro hj
      exact absurd hj.symm hji

theorem popCount_foldl_xor :
    ∀ (l : List Nat), l.Nodup → (∀ a ∈ l, a < 128) →
      popCount (l.foldl (fun a i => a ^^^ 2 ^ i) 0) = l.length := by
  intro l
  induction l with
  | nil => intro _ _; exact popCount_zero
  | cons i l ih =>
    intro hnd hsmall
    have hnd' := List.nodup_cons.mp hnd
    simp only [List.foldl_cons, Nat.zero_xor]
    rw [foldl_xor_acc l (2 ^ i)]
    have hfresh : (l.foldl (fun a i => a ^^^ 2 ^ i) 0).testBit i = false := by
      rw [foldl_xor_testBit l hnd'.2 i]
      simp [hnd'.1]
    rw [Nat.xor_comm, popCount_xor_two_pow (hsmall i (List.mem_cons_self _ _)) hfresh,
      ih hnd'.2 (fun a ha => hsmall a (List.mem_cons_of_mem _ ha))]
    simp

/-- C6: for every 128-bit code `v`, every `n ≤ 128` and every permutation of
the 128 bit positions the perturbation may sample, `hamming_peturb` flips
exactly `n` distinct bit positions, so
`hamming_distance v (hamming_peturb v n) = n` exactly. -/
theorem peturb_distance {b : List Nat} (hb : b.Perm (List.range 128))
    {n : Nat} (hn : n ≤ 128) (v : Nat) :
    ∃ w, hamming_peturb? b v n = some w ∧ hamming_distance v w = n := by
  have hblen : b.length = 128 := by
    rw [hb.length_eq, List.length_range]
  have hmem : ∀ a ∈ b, a < 128 := by
    intro a ha
    have := hb.mem_iff.mp ha
    exact List.mem_range.mp this
  have htake : ∀ a ∈ b.take n, a < 128 :=
    fun a ha => hmem a (List.mem_of_mem_take ha)
  have hnd : (b.take n).Nodup :=
    (List.take_sublist n b).nodup (hb.nodup_iff.mpr (List.nodup_range 128))
  refine ⟨(b.take n).foldl (fun a i => a ^^^ 2 ^ i) v, ?_, ?_⟩
  · unfold hamming_peturb?
    rw [if_pos (by omega), if_pos (List.all_eq_true.mpr
      (fun a ha => decide_eq_true (htake a ha)))]
  · unfold hamming_distance
    rw [foldl_xor_acc]
    have : v ^^^ (v ^^^ (b.take n).foldl (fun a i => a ^^^ 2 ^ i) 0) =
        (b.take n).foldl (fun a i => a ^^^ 2 ^ i) 0 := by
      rw [← Nat.xor_assoc, Nat.xor_self, Nat.zero_xor]
    rw [this, popCount_foldl_xor _ hnd htake, List.length_take]
    omega

/-- Witness for C6 at a concrete permutation, code and flip count. -/
theorem peturb_distance_witness :
    ∃ w, hamming_peturb? (List.range 128) 0 3 = some w ∧ hamming_distance 0 w = 3 :=
  peturb_distance (List.Perm.refl _) (by omega) 0

/-- C8: `hamming_distance` is `popcount(a XOR b)`, symmetric, zero exactly on
equal codes, bounded by 128, and satisfies the triangle inequality, for all
128-bit codes. -/
theorem distance_metric {a b c : Nat} (ha : a < 2 ^ 128) (hb : b < 2 ^ 128)
    (hc : c < 2 ^ 128) :
    hamming_distance a b = popCount (a ^^^ b) ∧
    hamming_distance a b = hamming_distance b a ∧
    hamming_distance a a = 0 ∧
    (hamming_distance a b = 0 ↔ a = b) ∧
    hamming_distance a b ≤ 128 ∧
    hamming_distance a b ≤ hamming_distance a c + hamming_distance c b :=
  ⟨hamming_distance_eq_popCount_xor a b, hamming_distance_comm a b,
    hamming_distance_self a, hamming_distance_eq_zero_iff ha hb,
    hamming_distance_le_128 a b, hamming_distance_triangle a b c⟩

/-- Witness for C8 at concrete codes. -/
theorem distance_metric_witness :
    hamming_distance 5 3 = popCount (5 ^^^ 3) ∧
    hamming_distance 5 3 = hamming_distance 3 5 ∧
    hamming_distance 5 5 = 0 ∧
    (hamming_distance 5 3 = 0 ↔ 5 = 3) ∧
    hamming_distance 5 3 ≤ 128 ∧
    hamming_distance 5 3 ≤ hamming_distance 5 9 + hamming_distance 9 3 :=
  distance_metric (by norm_num) (by norm_num) (by norm_num)

/-- C3 counterexample: with 33 hyperplanes (k = 33 is inside the claimed
range `0 ≤ k ≤ 128`) and the code `2 ^ 32` — whose bit `planes[32] = 32` is
set, so the claim predicts a bucket index with output bit 32 equal to 1 —
`hash` does not return any value: the `u32` accumulator shift `h << 32`
overflows (a panic in checked builds).  The claim as stated is false. -/
theorem hash_counterexample :
    hashChk (((List.range 128).take 33).map (fun a => 2 ^ a)) (2 ^ 32) = none := by
  unfold hashChk
  rw [if_neg (by simp)]

/-- C3 (amended: `0 ≤ k ≤ 32` instead of `0 ≤ k ≤ 128`): for every hyperplane
sequence sampled from a permutation of the 128 positions, the hash of a code
is a k-bit bucket index in `[0, 2 ^ k)` whose output bit `i` is exactly bit
`planes[i]` of the code; `k = 0` yields index 0 always. -/
theorem hash_spec {b : List Nat} {k : Nat} (hb : b.Perm (List.range 128))
    (hk32 : k ≤ 32) (c : Nat) :
    ∃ h, hashChk ((b.take k).map (fun a => 2 ^ a)) c = some h ∧
      h < 2 ^ k ∧
      (∀ i, i < k → h.testBit i = c.testBit ((b.take k).getD i 0)) ∧
      (∀ i, k ≤ i → h.testBit i = false) ∧
      (k = 0 → h = 0) := by
  have hblen : b.length = 128 := by rw [hb.length_eq, List.length_range]
  have hklen : (b.take k).length = k := by
    rw [List.length_take]
    omega
  have hplen : ((b.take k).map (fun a => 2 ^ a)).length = k := by
    rw [List.length_map, hklen]
  refine ⟨hash ((b.take k).map (fun a => 2 ^ a)) c, ?_, ?_, ?_, ?_, ?_⟩
  · unfold hashChk
    rw [if_pos (by rw [hplen]; exact hk32)]
  · have := hash_lt ((b.take k).map (fun a => 2 ^ a)) c
    rw [hplen] at this
    exact this
  · intro i hi
    rw [hash_testBit, hplen, if_pos hi]
    have hgetd : ((b.take k).map (fun a => 2 ^ a)).getD i 0 =
        2 ^ ((b.take k).getD i 0) := by
      rw [List.getD_eq_getElem?_getD, List.getD_eq_getElem?_getD, List.getElem?_map]
      rw [List.getElem?_eq_getElem (by rw [hklen]; exact hi)]
      rfl
    rw [hgetd, Nat.and_two_pow]
    rcases Bool.eq_false_or_eq_true (c.testBit ((b.take k).getD i 0)) with hbit | hbit <;>
      rw [hbit] <;> simp
  · intro i hi
    rw [hash_testBit, hplen, if_neg (by omega)]
  · intro hk0
    subst hk0
    have := hash_lt ((b.take 0).map (fun a => 2 ^ a)) c
    rw [hplen] at this
    omega

/-- Witness for C3 at the identity permutation, k = 2, code 2. -/
theorem hash_spec_witness :
    ∃ h, hashChk (((List.range 128).take 2).map (fun a => 2 ^ a)) 2 = some h ∧
      h < 2 ^ 2 ∧
      (∀ i, i < 2 → h.testBit i = (2 : Nat).testBit (((List.range 128).take 2).getD i 0)) ∧
      (∀ i, 2 ≤ i → h.testBit i = false) ∧
      (2 = 0 → h = 0) :=
  hash_spec (List.Perm.refl _) (by omega) 2

/-- Reachable-but-broken table for the C4 counterexample: `k = 40`
constructs, but its first use panics in `hash`. -/
def s40 : HammingLSH Nat :=
  { tables := [{ hyperplanes := ((List.range 128).take 40).map (fun a => 2 ^ a),
                 buckets := List.replicate (2 ^ 40) [] }],
    data := [] }

/-- C4 counterexample, three facts refuting the claim as stated:
`k = 64` lies inside the claimed-valid range `[0, 128]` yet construction
fails (the bucket count `1usize << 64` overflows), so construction does not
fail *only* on invalid parameters; `k = 200` is invalid yet an `L = 0`
ensemble constructs fine (the table loop body never runs), so invalid `k` is
not surfaced at construction; and `k = 40` constructs a structure whose very
first insert panics, so the failure is deferred rather than fail-fast. -/
theorem construction_counterexample :
    HammingLSH.new? Nat [List.range 128] 64 = none ∧
    HammingLSH.new? Nat ([] : List (List Nat)) 200 =
      some { tables := [], data := [] } ∧
    HammingLSH.new? Nat [List.range 128] 40 = some s40 ∧
    s40.insert? 0 7 = none := by
  refine ⟨?_, rfl, ?_, ?_⟩
  · unfold HammingLSH.new? collectOpts HammingTable.new?
    rw [if_pos (by simp), if_pos (by decide), if_neg (by omega)]
  · unfold HammingLSH.new? collectOpts HammingTable.new? s40
    rw [if_pos (by simp), if_pos (by decide), if_pos (by omega)]
    rfl
  · unfold HammingLSH.insert? s40 collectOpts HammingTable.insert? hashChk
    rw [if_neg (by simp)]

/-- C4 (amended): ensemble construction fails exactly when there is at least
one table and `k ≥ 64`; in particular it also fails for the spec-valid range
`64 ≤ k ≤ 128`, and it succeeds for every `k` (even `k > 128`) when `L = 0`.
`L = 0` is not an error: the degenerate empty ensemble answers every query
with "no match". -/
theorem construction_spec {T : Type} {bs : List (List Nat)} {k : Nat}
    (hbs : ∀ b ∈ bs, b.Perm (List.range 128)) :
    ((HammingLSH.new? T bs k).isSome ↔ (bs = [] ∨ k < 64)) ∧
    (∀ s : HammingLSH T, HammingLSH.new? T ([] : List (List Nat)) k = some s →
      ∀ q, s.get? q = some none) := by
  constructor
  · constructor
    · intro h
      rcases hs : HammingLSH.new? T bs k with _ | s
      · rw [hs] at h; exact absurd h (by simp)
      · unfold HammingLSH.new? at hs
        rcases hc : collectOpts (fun b => HammingTable.new? Nat b k) bs with _ | ts
        · rw [hc] at hs; exact absurd hs (by simp)
        · rcases bs with _ | ⟨b, bs'⟩
          · exact Or.inl rfl
          · refine Or.inr ?_
            simp only [collectOpts] at hc
            rcases ht : HammingTable.new? Nat b k with _ | t
            · rw [ht] at hc; exact absurd hc (by simp)
            · rcases HammingTable.new?_eq_some.mp ht with ⟨_, _, hk64, _⟩
              exact hk64
    · intro h
      rcases h with hbs' | hk64
      · subst hbs'
        rfl
      · have hstep : ∀ b ∈ bs, ∃ t, HammingTable.new? Nat b k = some t := by
          intro b hbmem
          have hblen : b.length = 128 := by
            rw [(hbs b hbmem).length_eq, List.length_range]
          refine ⟨_, HammingTable.new?_eq_some.mpr ⟨by omega, ?_, hk64, rfl⟩⟩
          intro a ha
          have : a ∈ b := List.mem_of_mem_take ha
          exact List.mem_range.mp ((hbs b hbmem).mem_iff.mp this)
        rcases collectOpts_isSome _ bs hstep with ⟨ts, hts⟩
        have hnew : HammingLSH.new? T bs k = some { tables := ts, data := [] } := by
          unfold HammingLSH.new?
          rw [hts]
        rw [hnew]
        rfl
  · intro s hs q
    have : s = { tables := [], data := [] } := (Option.some.inj hs).symm
    subst this
    rfl

/-- Witness for C4: a one-table ensemble with k = 4 constructs, a zero-table
ensemble answers "no match". -/
theorem construction_spec_witness :
    ((HammingLSH.new? Nat [List.range 128] 4).isSome ↔
      ([List.range 128] = ([] : List (List Nat)) ∨ 4 < 64)) ∧
    (∀ s : HammingLSH Nat, HammingLSH.new? Nat ([] : List (List Nat)) 4 = some s →
      ∀ q, s.get? q = some none) :=
  construction_spec (by
    intro b hbmem
    rw [List.mem_singleton] at hbmem
    subst hbmem
    exact List.Perm.refl _)

/-- Reachable table used in the C2 counterexample: `k = 33` constructs. -/
def t33 : HammingTable Nat :=
  { hyperplanes := ((List.range 128).take 33).map (fun a => 2 ^ a),
    buckets := List.replicate (2 ^ 33) [] }

/-- C2 counterexample: the freshly constructed table with k = 33 is a
reachable state (construction succeeds, zero inserts) whose bucket is empty,
yet `get(0)` returns nothing at all — the `u32` shift in `hash` overflows
(a panic) — instead of the "no match" value the claim promises.  The claim,
quantified over every reachable table state, is therefore false. -/
theorem table_get_counterexample :
    HammingTable.new? Nat (List.range 128) 33 = some t33 ∧
    HammingTable.get? t33 0 = none := by
  constructor
  · unfold HammingTable.new? t33
    rw [if_pos (by simp), if_pos (by decide), if_pos (by omega)]
  · unfold HammingTable.get? t33 hashChk
    rw [if_neg (by simp)]

/-- C2 (amended: tables with at most 32 hyperplanes, `k ≤ 32`): for every
reachable single-table state and every query, `get` hashes the query, scans
only the bucket at that index, and returns the first entry attaining the
minimum Hamming distance (strict `<` scan, insertion order), or "no match"
exactly when that bucket is empty. -/
theorem table_get_spec {U : Type} {b : List Nat} {k : Nat} {ps : List (Nat × U)}
    {t : HammingTable U} (hrun : runTable? U b k ps = some t) (hk : k ≤ 32) (q : Nat) :
    ∃ bkt, t.buckets[hash t.hyperplanes q]? = some bkt ∧
      t.get? q = some (nearest bkt q) ∧
      (nearest bkt q = none ↔ bkt = []) ∧
      ∀ c p, nearest bkt q = some (c, p) →
        some (c, p) ∈ bkt ∧
        (∀ c' p', some (c', p') ∈ bkt → hamming_distance c q ≤ hamming_distance c' q) ∧
        ∃ l1 l2, bkt = l1 ++ some (c, p) :: l2 ∧
          ∀ c' p', some (c', p') ∈ l1 → hamming_distance c q < hamming_distance c' q := by
  rcases runTable?_spec hrun with ⟨hp, hplen, hblen, hbuckets⟩
  have hwf1 : t.hyperplanes.length ≤ 32 := by rw [hplen]; exact hk
  have hwf2 : t.buckets.length = 2 ^ t.hyperplanes.length := by rw [hblen, hplen]
  rcases HammingTable.get?_eq q hwf1 hwf2 with ⟨bkt, hb, hget⟩
  have hcontents := hbuckets (hash t.hyperplanes q)
    (by rw [← hplen]; exact hash_lt _ _)
  have hbkt : bkt = (ps.filter
      (fun p => decide (hash t.hyperplanes p.1 = hash t.hyperplanes q))).map
      (fun p => some p) :=
    Option.some.inj (hb.symm.trans hcontents)
  refine ⟨bkt, hb, hget, ?_, ?_⟩
  · constructor
    · intro hnone
      have hall := (nearest_eq_none_iff bkt q).mp hnone
      rcases hl : (ps.filter
          (fun p => decide (hash t.hyperplanes p.1 = hash t.hyperplanes q))) with _ | ⟨p, l⟩
      · rw [hbkt, hl]
        rfl
      · exfalso
        have : some p ∈ bkt := by
          rw [hbkt, hl]
          exact List.mem_cons_self _ _
        exact absurd (hall _ this) (by simp)
    · intro hempty
      rw [hempty]
      rfl
  · intro c p hn
    exact ⟨nearest_mem hn, nearest_min_le hn, nearest_first hn⟩

/-- Reachable table for the C2 witness. -/
def c2table : HammingTable Nat :=
  { hyperplanes := [1], buckets := [[], [some (3, 5)]] }

/-- Witness for C2: identity permutation, k = 1, insert (3, 5), query 3. -/
theorem table_get_spec_witness :
    runTable? Nat (List.range 128) 1 [(3, 5)] = some c2table ∧
    (∃ bkt, c2table.buckets[hash c2table.hyperplanes 3]? = some bkt ∧
      c2table.get? 3 = some (nearest bkt 3) ∧
      (nearest bkt 3 = none ↔ bkt = []) ∧
      ∀ c p, nearest bkt 3 = some (c, p) →
        some (c, p) ∈ bkt ∧
        (∀ c' p', some (c', p') ∈ bkt → hamming_distance c 3 ≤ hamming_distance c' 3) ∧
        ∃ l1 l2, bkt = l1 ++ some (c, p) :: l2 ∧
          ∀ c' p', some (c', p') ∈ l1 → hamming_distance c 3 < hamming_distance c' 3) :=
  ⟨rfl, @table_get_spec Nat (List.range 128) 1 [(3, 5)] c2table rfl (by omega) 3⟩

/-- Reachable ensemble used in the C1 counterexample: `k = 33`, one table. -/
def s33 : HammingLSH Nat :=
  { tables := [{ hyperplanes := ((List.range 128).take 33).map (fun a => 2 ^ a),
                 buckets := List.replicate (2 ^ 33) [] }],
    data := [] }

/-- C1 counterexample: the freshly constructed ensemble with k = 33, L = 1 is
reachable (construction succeeds, zero inserts); every table bucket is empty,
so the claim requires `get` to return "no match" — but `get(0)` returns
nothing at all (`u32` shift overflow in `hash`, a panic).  The claim,
quantified over every reachable ensemble state, is therefore false. -/
theorem ensemble_get_counterexample :
    HammingLSH.new? Nat [List.range 128] 33 = some s33 ∧
    s33.data = [] ∧
    HammingLSH.get? s33 0 = none := by
  refine ⟨?_, rfl, ?_⟩
  · unfold HammingLSH.new? collectOpts HammingTable.new? s33
    rw [if_pos (by simp), if_pos (by decide), if_pos (by omega)]
    rfl
  · unfold HammingLSH.get? s33 collectOpts HammingTable.get? hashChk
    rw [if_neg (by simp)]

/-- C1 (amended: tables with at most 32 hyperplanes, `k ≤ 32`): on every
reachable ensemble state, `get` collects the tables' local results and
returns, among them, the candidate with the globally minimum Hamming
distance to the query, ties broken in favour of the first table; its
distance is never worse than any single table's local candidate, and `get`
answers "no match" exactly when every table's local result is empty. -/
theorem ensemble_get_spec {T : Type} {bs : List (List Nat)} {k : Nat}
    {ps : List (Nat × T)} {s : HammingLSH T}
    (hrun : runLSH? T bs k ps = some s) (hk : k ≤ 32) (q : Nat) :
    ∃ cands, collectOpts (fun t => t.get? q) s.tables = some cands ∧
      (∀ (j : Nat) (t : HammingTable Nat), s.tables[j]? = some t →
        ∃ r, cands[j]? = some r ∧ t.get? q = some r) ∧
      (s.get? q = some none ↔ ∀ r ∈ cands, r = none) ∧
      (∀ c i, nearest cands q = some (c, i) →
        ∃ d, s.data[i]? = some d ∧ s.get? q = some (some (c, d)) ∧
          some (c, i) ∈ cands ∧
          (∀ c' i', some (c', i') ∈ cands →
            hamming_distance c q ≤ hamming_distance c' q) ∧
          ∃ l1 l2, cands = l1 ++ some (c, i) :: l2 ∧
            ∀ c' i', some (c', i') ∈ l1 →
              hamming_distance c q < hamming_distance c' q) ∧
      (nearest cands q = none → s.get? q = some none) := by
  have hwf : ∀ t ∈ s.tables, t.hyperplanes.length ≤ 32 ∧
      t.buckets.length = 2 ^ t.hyperplanes.length := by
    intro t ht
    rcases runLSH?_spec hrun with ⟨hdata, hlen, htab⟩
    rcases List.mem_iff_getElem?.mp ht with ⟨j, hj⟩
    have hjlt : j < bs.length := by
      rw [← hlen]
      rcases List.getElem?_eq_some.mp hj with ⟨hlt, _⟩
      exact hlt
    rcases htab j bs[j] (List.getElem?_eq_getElem hjlt) with ⟨t', ht', hrt⟩
    have htt : t' = t := Option.some.inj (ht'.symm.trans hj)
    subst htt
    rcases runTable?_spec hrt with ⟨_, hplen, hblen, _⟩
    exact ⟨by rw [hplen]; exact hk, by rw [hblen, hplen]⟩
  have hsucc : ∀ t ∈ s.tables, ∃ r, t.get? q = some r := by
    intro t ht
    rcases hwf t ht with ⟨h1, h2⟩
    rcases HammingTable.get?_eq q h1 h2 with ⟨bkt, _, hget⟩
    exact ⟨_, hget⟩
  rcases collectOpts_isSome _ s.tables hsucc with ⟨cands, hc⟩
  have hbound : ∀ c i, some (c, i) ∈ cands → i < s.data.length := by
    intro c i hmem
    rcases collectOpts_mem _ _ _ hc _ hmem with ⟨t, htm, hget⟩
    rcases HammingTable.get?_eq_some.mp hget with ⟨_, bkt, hb, hr⟩
    have hmem2 : some (c, i) ∈ bkt := nearest_mem hr.symm
    rcases runLSH?_stored_indices hrun t htm bkt (List.getElem?_mem hb) _ hmem2
      with ⟨c', i', he, hlt⟩
    have hpair : (c, i) = (c', i') := Option.some.inj he
    have hii : i = i' := congrArg Prod.snd hpair
    rw [hii]
    exact hlt
  have hnone_case : nearest cands q = none → s.get? q = some none := by
    intro hn
    unfold HammingLSH.get?
    rw [hc]
    show (match nearest cands q with
      | some (k, i) =>
        match s.data[i]? with
        | some d => some (some (k, d))
        | none => none
      | none => some none) = some none
    rw [hn]
  have hsome_case : ∀ (c i : Nat) (d : T), nearest cands q = some (c, i) →
      s.data[i]? = some d → s.get? q = some (some (c, d)) := by
    intro c i d hn hd
    unfold HammingLSH.get?
    rw [hc]
    show (match nearest cands q with
      | some (k, i) =>
        match s.data[i]? with
        | some d => some (some (k, d))
        | none => none
      | none => some none) = some (some (c, d))
    rw [hn]
    show (match s.data[i]? with
      | some d => some (some (c, d))
      | none => none) = some (some (c, d))
    rw [hd]
  refine ⟨cands, hc, ?_, ?_, ?_, hnone_case⟩
  · intro j t hj
    exact collectOpts_getElem _ _ _ hc j t hj
  · constructor
    · intro hnone
      rcases hn : nearest cands q with _ | ⟨c, i⟩
      · exact (nearest_eq_none_iff cands q).mp hn
      · exfalso
        have hi := hbound c i (nearest_mem hn)
        have := hsome_case c i s.data[i] hn (List.getElem?_eq_getElem hi)
        rw [hnone] at this
        exact absurd (Option.some.inj this) (by simp)
    · intro hall
      exact hnone_case ((nearest_eq_none_iff cands q).mpr hall)
  · intro c i hn
    have hi := hbound c i (nearest_mem hn)
    exact ⟨s.data[i], List.getElem?_eq_getElem hi,
      hsome_case c i s.data[i] hn (List.getElem?_eq_getElem hi), nearest_mem hn,
      nearest_min_le hn, nearest_first hn⟩

/-- Reachable ensemble for the C1 witness. -/
def c1state : HammingLSH Nat :=
  { tables := [{ hyperplanes := [1], buckets := [[], [some (3, 0)]] }],
    data := [5] }

/-- Witness for C1: identity permutation, k = 1, L = 1, insert (3, 5),
query 2. -/
theorem ensemble_get_spec_witness :
    runLSH? Nat [List.range 128] 1 [(3, 5)] = some c1state ∧
    (∃ cands, collectOpts (fun t => t.get? 2) c1state.tables = some cands ∧
      (∀ (j : Nat) (t : HammingTable Nat), c1state.tables[j]? = some t →
        ∃ r, cands[j]? = some r ∧ t.get? 2 = some r) ∧
      (c1state.get? 2 = some none ↔ ∀ r ∈ cands, r = none) ∧
      (∀ c i, nearest cands 2 = some (c, i) →
        ∃ d, c1state.data[i]? = some d ∧ c1state.get? 2 = some (some (c, d)) ∧
          some (c, i) ∈ cands ∧
          (∀ c' i', some (c', i') ∈ cands →
            hamming_distance c 2 ≤ hamming_distance c' 2) ∧
          ∃ l1 l2, cands = l1 ++ some (c, i) :: l2 ∧
            ∀ c' i', some (c', i') ∈ l1 →
              hamming_distance c 2 < hamming_distance c' 2) ∧
      (nearest cands 2 = none → c1state.get? 2 = some none)) :=
  ⟨rfl, @ensemble_get_spec Nat [List.range 128] 1 [(3, 5)] c1state rfl (by omega) 2⟩

theorem indexedCodes_getElem {T : Type} :
    ∀ (ps : List (Nat × T)) (start j : Nat),
      (indexedCodes start ps)[j]? = (ps[j]?).map (fun p => (p.1, start + j)) := by
  intro ps
  induction ps with
  | nil => intro start j; simp [indexedCodes]
  | cons p ps ih =>
    intro start j
    rcases j with _ | j
    · simp [indexedCodes]
    · simp only [indexedCodes, List.getElem?_cons_succ]
      rw [ih (start + 1) j]
      have harr : start + 1 + j = start + (j + 1) := by omega
      rw [harr]

/-- C7: after every (successful) sequence of `n` ensemble inserts, the value
store holds exactly the `n` payloads in insertion order (the `j`-th insert
occupies slot `j`), no table's hyperplane set has changed since
construction, and every inserted `(code, slot)` pair sits in exactly one
bucket of every one of the L tables. -/
theorem insert_invariants {T : Type} {bs : List (List Nat)} {k : Nat}
    {ps : List (Nat × T)} {s : HammingLSH T} (hrun : runLSH? T bs k ps = some s) :
    s.data = ps.map (fun p => p.2) ∧
    s.data.length = ps.length ∧
    s.tables.length = bs.length ∧
    (∀ (j : Nat) (b : List Nat), bs[j]? = some b → ∃ t, s.tables[j]? = some t ∧
      t.hyperplanes = (b.take k).map (fun a => 2 ^ a)) ∧
    (∀ t ∈ s.tables, ∀ (j c : Nat) (v : T), ps[j]? = some (c, v) →
      ∃! h' : Nat, ∃ bkt : List (Option (Nat × Nat)),
        t.buckets[h']? = some bkt ∧ some (c, j) ∈ bkt) := by
  rcases runLSH?_spec hrun with ⟨hdata, hlen, htab⟩
  refine ⟨hdata, by rw [hdata, List.length_map], hlen, ?_, ?_⟩
  · intro j b hj
    rcases htab j b hj with ⟨t, ht, hrt⟩
    exact ⟨t, ht, (runTable?_spec hrt).1⟩
  · intro t ht j c v hj
    rcases List.mem_iff_getElem?.mp ht with ⟨jt, hjt⟩
    have hjtlt : jt < bs.length := by
      rw [← hlen]
      rcases List.getElem?_eq_some.mp hjt with ⟨hlt, _⟩
      exact hlt
    rcases htab jt bs[jt] (List.getElem?_eq_getElem hjtlt) with ⟨t', ht', hrt⟩
    have htt : t' = t := Option.some.inj (ht'.symm.trans hjt)
    rw [htt] at hrt
    rcases runTable?_spec hrt with ⟨hp, hplen, hblen, hbuckets⟩
    have hmemic : (c, j) ∈ indexedCodes 0 ps := by
      have := indexedCodes_getElem ps 0 j
      rw [hj] at this
      have hz : (0 : Nat) + j = j := Nat.zero_add j
      rw [hz] at this
      exact List.getElem?_mem this
    refine ⟨hash t.hyperplanes c, ?_, ?_⟩
    · have hlt : hash t.hyperplanes c < 2 ^ k := by
        rw [← hplen]
        exact hash_lt _ _
      refine ⟨_, hbuckets (hash t.hyperplanes c) hlt, ?_⟩
      apply List.mem_map_of_mem
      rw [List.mem_filter]
      exact ⟨hmemic, by simp⟩
    · intro h'' hex
      rcases hex with ⟨bkt'', hb'', hmem''⟩
      have hlt'' : h'' < 2 ^ k := by
        rw [← hblen]
        rcases List.getElem?_eq_some.mp hb'' with ⟨hlt, _⟩
        exact hlt
      have hbkteq := Option.some.inj ((hbuckets h'' hlt'').symm.trans hb'')
      rw [← hbkteq] at hmem''
      rcases List.mem_map.mp hmem'' with ⟨p, hpL, hps⟩
      have hpc : p = (c, j) := Option.some.inj hps
      subst hpc
      rcases List.mem_filter.mp hpL with ⟨_, hpred⟩
      have := of_decide_eq_true hpred
      exact this.symm

/-- Witness for C7 at a one-table ensemble with one insert. -/
theorem insert_invariants_witness :
    c1state.data = [(3, 5)].map (fun p : Nat × Nat => p.2) ∧
    c1state.data.length = [(3, 5)].length ∧
    c1state.tables.length = [List.range 128].length ∧
    (∀ (j : Nat) (b : List Nat), [List.range 128][j]? = some b →
      ∃ t, c1state.tables[j]? = some t ∧
        t.hyperplanes = (b.take 1).map (fun a => 2 ^ a)) ∧
    (∀ t ∈ c1state.tables, ∀ (j c : Nat) (v : Nat), [((3 : Nat), (5 : Nat))][j]? = some (c, v) →
      ∃! h' : Nat, ∃ bkt : List (Option (Nat × Nat)),
        t.buckets[h']? = some bkt ∧ some (c, j) ∈ bkt) :=
  @insert_invariants Nat [List.range 128] 1 [(3, 5)] c1state rfl

/-- C9 (implicit claim): in every reachable ensemble state, every payload
index stored in any bucket of any table is strictly below the value-store
length, so the `self.data[i]` dereference in `HammingLSH::get` is always in
bounds: whenever the per-table phase of `get` completes, `get` returns a
value (the out-of-bounds panic branch is unreachable). -/
theorem index_safety {T : Type} {bs : List (List Nat)} {k : Nat}
    {ps : List (Nat × T)} {s : HammingLSH T} (hrun : runLSH? T bs k ps = some s) :
    (∀ t ∈ s.tables, ∀ bkt ∈ t.buckets, ∀ e ∈ bkt,
      ∃ c i, e = some (c, i) ∧ i < s.data.length) ∧
    (∀ (q : Nat) (cands : List (Option (Nat × Nat))),
      collectOpts (fun t => t.get? q) s.tables = some cands →
      (∀ c i, nearest cands q = some (c, i) →
        i < s.data.length ∧ ∃ d, s.data[i]? = some d) ∧
      ∃ r, s.get? q = some r) := by
  refine ⟨runLSH?_stored_indices hrun, ?_⟩
  intro q cands hc
  have hbound : ∀ c i, some (c, i) ∈ cands → i < s.data.length := by
    intro c i hmem
    rcases collectOpts_mem _ _ _ hc _ hmem with ⟨t, htm, hget⟩
    rcases HammingTable.get?_eq_some.mp hget with ⟨_, bkt, hb, hr⟩
    have hmem2 : some (c, i) ∈ bkt := nearest_mem hr.symm
    rcases runLSH?_stored_indices hrun t htm bkt (List.getElem?_mem hb) _ hmem2
      with ⟨c', i', he, hlt⟩
    have hpair : (c, i) = (c', i') := Option.some.inj he
    have hii : i = i' := congrArg Prod.snd hpair
    rw [hii]
    exact hlt
  constructor
  · intro c i hn
    have hi := hbound c i (nearest_mem hn)
    exact ⟨hi, s.data[i], List.getElem?_eq_getElem hi⟩
  · rcases hn : nearest cands q with _ | ⟨c, i⟩
    · refine ⟨none, ?_⟩
      unfold HammingLSH.get?
      rw [hc]
      show (match nearest cands q with
        | some (kk, i) =>
          match s.data[i]? with
          | some d => some (some (kk, d))
          | none => none
        | none => some none) = some none
      rw [hn]
    · have hi := hbound c i (nearest_mem hn)
      refine ⟨some (c, s.data[i]), ?_⟩
      unfold HammingLSH.get?
      rw [hc]
      show (match nearest cands q with
        | some (kk, i) =>
          match s.data[i]? with
          | some d => some (some (kk, d))
          | none => none
        | none => some none) = some (some (c, s.data[i]))
      rw [hn]
      show (match s.data[i]? with
        | some d => some (some (c, d))
        | none => none) = some (some (c, s.data[i]))
      rw [List.getElem?_eq_getElem hi]

/-- Witness for C9 at a one-table ensemble with one insert. -/
theorem index_safety_witness :
    (∀ t ∈ c1state.tables, ∀ bkt ∈ t.buckets, ∀ e ∈ bkt,
      ∃ c i, e = some (c, i) ∧ i < c1state.data.length) ∧
    (∀ (q : Nat) (cands : List (Option (Nat × Nat))),
      collectOpts (fun t => t.get? q) c1state.tables = some cands →
      (∀ c i, nearest cands q = some (c, i) →
        i < c1state.data.length ∧ ∃ d, c1state.data[i]? = some d) ∧
      ∃ r, c1state.get? q = some r) :=
  @index_safety Nat [List.range 128] 1 [(3, 5)] c1state rfl

/-- C10 (implicit claim): given the same hyperplane sets per table and the
same insert sequence, the `src/main.rs` prototype and the `src/lib.rs`
library build abstraction-related states, and their ensemble `get`s return
the same `(code, payload)` result — or both no match — for every query. -/
theorem prototype_equivalence (T : Type) (bs : List (List Nat)) (k : Nat)
    (ps : List (Nat × T)) :
    runLSH? T bs k ps = (Main.runLSH? T bs k ps).map absLSH ∧
    ∀ m : Main.HammingLSH T, Main.runLSH? T bs k ps = some m →
      ∀ q, HammingLSH.get? (absLSH m) q = Main.HammingLSH.get? m q := by
  refine ⟨absLSH_run T bs k ps, ?_⟩
  intro m hm q
  apply absLSH_get
  have hlib : runLSH? T bs k ps = some (absLSH m) := by
    rw [absLSH_run, hm]
    rfl
  exact runLSH?_stored_indices hlib

/-- Concrete `src/main.rs` state for the C10 witness. -/
def m1 : Main.HammingLSH Nat :=
  { tables := [{ hyperplanes := [1], buckets := [[], [(3, 0)]] }], data := [5] }

/-- Witness for C10: one table, identity permutation, one insert, query 2. -/
theorem prototype_equivalence_witness :
    Main.runLSH? Nat [List.range 128] 1 [(3, 5)] = some m1 ∧
    HammingLSH.get? (absLSH m1) 2 = Main.HammingLSH.get? m1 2 :=
  ⟨rfl, (prototype_equivalence Nat [List.range 128] 1 [(3, 5)]).2 m1 rfl 2⟩

theorem HammingLSH.get?_of_winner {T : Type} {s : HammingLSH T} {q : Nat}
    {cands : List (Option (Nat × Nat))}
    (hc : collectOpts (fun t => t.get? q) s.tables = some cands)
    {c i : Nat} (hn : nearest cands q = some (c, i)) {d : T}
    (hd : s.data[i]? = some d) :
    s.get? q = some (some (c, d)) := by
  unfold HammingLSH.get?
  rw [hc]
  show (match nearest cands q with
    | some (kk, i) =>
      match s.data[i]? with
      | some d => some (some (kk, d))
      | none => none
    | none => some none) = some (some (c, d))
  rw [hn]
  show (match s.data[i]? with
    | some d => some (some (c, d))
    | none => none) = some (some (c, d))
  rw [hd]

/-- C5: for every pair of hyperplane sets the constructor may sample, the
k = 4, L = 2 index filled with codes `0x00`, `0xFF000...0`, `0x0F00...0`
(payloads "a", "b", "c") answers the unperturbed query `0x00` with the exact
match: code `0x00`, payload "a", at Hamming distance 0. -/
theorem end_to_end_scenario {b1 b2 : List Nat}
    (h1 : b1.Perm (List.range 128)) (h2 : b2.Perm (List.range 128)) :
    ∃ s : HammingLSH String,
      runLSH? String [b1, b2] 4
        [(0, "a"), (0xFF * 2 ^ 120, "b"), (0x0F * 2 ^ 120, "c")] = some s ∧
      s.get? 0 = some (some (0, "a")) ∧
      hamming_distance 0 0 = 0 := by
  have hb1len : b1.length = 128 := by rw [h1.length_eq, List.length_range]
  have hb2len : b2.length = 128 := by rw [h2.length_eq, List.length_range]
  have hmem1 : ∀ a ∈ b1.take 4, a < 128 := fun a ha =>
    List.mem_range.mp (h1.mem_iff.mp (List.mem_of_mem_take ha))
  have hmem2 : ∀ a ∈ b2.take 4, a < 128 := fun a ha =>
    List.mem_range.mp (h2.mem_iff.mp (List.mem_of_mem_take ha))
  have hnew1 : HammingTable.new? Nat b1 4 =
      some { hyperplanes := (b1.take 4).map (fun a => 2 ^ a),
             buckets := List.replicate (2 ^ 4) [] } :=
    HammingTable.new?_eq_some.mpr ⟨by omega, hmem1, by omega, rfl⟩
  have hnew2 : HammingTable.new? Nat b2 4 =
      some { hyperplanes := (b2.take 4).map (fun a => 2 ^ a),
             buckets := List.replicate (2 ^ 4) [] } :=
    HammingTable.new?_eq_some.mpr ⟨by omega, hmem2, by omega, rfl⟩
  have hnew : HammingLSH.new? String [b1, b2] 4 =
      some { tables :=
               [{ hyperplanes := (b1.take 4).map (fun a => 2 ^ a),
                  buckets := List.replicate (2 ^ 4) [] },
                { hyperplanes := (b2.take 4).map (fun a => 2 ^ a),
                  buckets := List.replicate (2 ^ 4) [] }],
             data := [] } := by
    unfold HammingLSH.new?
    simp only [collectOpts, hnew1, hnew2]
  have hwf0 : ∀ t ∈ ([⟨(b1.take 4).map (fun a => 2 ^ a), List.replicate (2 ^ 4) []⟩,
      ⟨(b2.take 4).map (fun a => 2 ^ a), List.replicate (2 ^ 4) []⟩] :
        List (HammingTable Nat)),
      t.hyperplanes.length ≤ 32 ∧ t.buckets.length = 2 ^ t.hyperplanes.length := by
    intro t ht
    have hcases : t = (⟨(b1.take 4).map (fun a => 2 ^ a), List.replicate (2 ^ 4) []⟩ :
          HammingTable Nat) ∨
        t = (⟨(b2.take 4).map (fun a => 2 ^ a), List.replicate (2 ^ 4) []⟩ :
          HammingTable Nat) := by
      rcases List.mem_cons.mp ht with hh | ht2
      · exact Or.inl hh
      · rcases List.mem_cons.mp ht2 with hh | ht3
        · exact Or.inr hh
        · exact absurd ht3 (List.not_mem_nil t)
    rcases hcases with hh | hh <;> rw [hh] <;>
      exact ⟨by simp only [List.length_map, List.length_take, hb1len, hb2len]; omega,
        by simp only [List.length_replicate, List.length_map, List.length_take,
             hb1len, hb2len]; norm_num⟩
  rcases insertsLSH?_isSome [(0, "a"), (0xFF * 2 ^ 120, "b"), (0x0F * 2 ^ 120, "c")]
    (⟨[⟨(b1.take 4).map (fun a => 2 ^ a), List.replicate (2 ^ 4) []⟩,
       ⟨(b2.take 4).map (fun a => 2 ^ a), List.replicate (2 ^ 4) []⟩], []⟩ :
      HammingLSH String) hwf0 with ⟨s, hins⟩
  have hrun : runLSH? String [b1, b2] 4
      [(0, "a"), (0xFF * 2 ^ 120, "b"), (0x0F * 2 ^ 120, "c")] = some s := by
    unfold runLSH?
    rw [hnew]
    exact hins
  refine ⟨s, hrun, ?_, hamming_distance_self 0⟩
  rcases runLSH?_spec hrun with ⟨hdata, hlen, htab⟩
  have hlocal : ∀ t ∈ s.tables, t.get? 0 = some (some (0, 0)) := by
    intro t ht
    rcases List.mem_iff_getElem?.mp ht with ⟨j, hj⟩
    have hjlt : j < ([b1, b2] : List (List Nat)).length := by
      rw [← hlen]
      exact (List.getElem?_eq_some.mp hj).1
    rcases htab j ([b1, b2] : List (List Nat))[j] (List.getElem?_eq_getElem hjlt)
      with ⟨t', ht', hrt⟩
    have htt : t' = t := Option.some.inj (ht'.symm.trans hj)
    rw [htt] at hrt
    rcases runTable?_spec hrt with ⟨hp, hplen, hblen, hbuckets⟩
    rcases HammingTable.get?_eq 0 (by rw [hplen]; omega) (by rw [hblen, hplen])
      with ⟨bkt, hb, hget⟩
    rw [hash_zero] at hb
    have hb0 := hbuckets 0 (by norm_num)
    have hbkt : bkt = ((indexedCodes 0
        [(0, "a"), (0xFF * 2 ^ 120, "b"), (0x0F * 2 ^ 120, "c")]).filter
          (fun q => decide (hash t.hyperplanes q.1 = 0))).map (fun q => some q) :=
      Option.some.inj (hb.symm.trans hb0)
    have hic : indexedCodes 0
        [((0 : Nat), "a"), (0xFF * 2 ^ 120, "b"), (0x0F * 2 ^ 120, "c")] =
        (0, 0) :: indexedCodes 1 [(0xFF * 2 ^ 120, "b"), (0x0F * 2 ^ 120, "c")] := rfl
    have hfilter : ((indexedCodes 0
        [((0 : Nat), "a"), (0xFF * 2 ^ 120, "b"), (0x0F * 2 ^ 120, "c")]).filter
          (fun q => decide (hash t.hyperplanes q.1 = 0))) =
        (0, 0) :: ((indexedCodes 1
          [(0xFF * 2 ^ 120, "b"), (0x0F * 2 ^ 120, "c")]).filter
            (fun q => decide (hash t.hyperplanes q.1 = 0))) := by
      rw [hic, List.filter_cons]
      rw [if_pos (by simp [hash_zero])]
    rw [hfilter] at hbkt
    rw [hget, hbkt, List.map_cons,
      nearest_head_of_dist_zero _ (hamming_distance_self 0)]
  have hlen2 : s.tables.length = 2 := by
    rw [hlen]
    rfl
  rcases List.length_eq_two.mp hlen2 with ⟨u0, u1, hT⟩
  have hg0 : u0.get? 0 = some (some (0, 0)) :=
    hlocal u0 (by rw [hT]; exact List.mem_cons_self _ _)
  have hg1 : u1.get? 0 = some (some (0, 0)) :=
    hlocal u1 (by rw [hT]; exact List.mem_cons_of_mem _ (List.mem_cons_self _ _))
  have hcoll : collectOpts (fun t => t.get? 0) s.tables =
      some [some (0, 0), some (0, 0)] := by
    rw [hT]
    simp only [collectOpts, hg0, hg1]
  have hd0 : s.data[0]? = some "a" := by
    rw [hdata]
    rfl
  exact HammingLSH.get?_of_winner hcoll
    (nearest_head_of_dist_zero _ (hamming_distance_self 0)) hd0

/-- Witness for C5 at the identity permutation for both tables. -/
theorem end_to_end_scenario_witness :
    ∃ s : HammingLSH String,
      runLSH? String [List.range 128, List.range 128] 4
        [(0, "a"), (0xFF * 2 ^ 120, "b"), (0x0F * 2 ^ 120, "c")] = some s ∧
      s.get? 0 = some (some (0, "a")) ∧
      hamming_distance 0 0 = 0 :=
  end_to_end_scenario (List.Perm.refl _) (List.Perm.refl _)

end HammingLsh
